import Mathlib

set_option linter.unusedVariables false

/- Verification development for the GenStudio plotting library.
   Part 1 models src/genstudio/widget.py: the to_json serialization routine
   built on orjson.dumps with a default callback, the Cache of
   content-addressed fragments, and the callback registry of a widget.
   Part 2 models the PlotSpec composition algebra, the margin shorthand and
   the dimensioned-data flattening of plot.py. -/

/-- JSON values that orjson can emit. -/
inductive J where
  | null : J
  | jbool (b : Bool) : J
  | jint (n : Int) : J
  | jstr (s : String) : J
  | jarr (xs : List J) : J
  | jobj (fields : List (String × J)) : J

/-- Escape of one character inside a JSON string literal. Only the quote and
    the backslash are escaped here; the inputs treated by the claims contain
    no control characters. -/
def jesc (c : Char) : String :=
  if c = Char.ofNat 34 then "\\\""
  else if c = Char.ofNat 92 then "\\\\"
  else String.singleton c

/-- A JSON string literal. -/
def jstring (s : String) : String :=
  "\"" ++ String.join (s.toList.map jesc) ++ "\""

mutual
/-- Compact JSON rendering, as orjson.dumps emits it (no whitespace). -/
def J.render : J → String
  | .null => "null"
  | .jbool true => "true"
  | .jbool false => "false"
  | .jint n => toString n
  | .jstr s => jstring s
  | .jarr xs => "[" ++ renderArr xs ++ "]"
  | .jobj fs => "\x7b" ++ renderObj fs ++ "\x7d"

/-- Comma-separated rendering of array elements. -/
def renderArr : List J → String
  | [] => ""
  | [x] => J.render x
  | x :: xs => J.render x ++ "," ++ renderArr xs

/-- Comma-separated rendering of object fields. -/
def renderObj : List (String × J) → String
  | [] => ""
  | [(k, v)] => jstring k ++ ":" ++ J.render v
  | (k, v) :: fs => jstring k ++ ":" ++ J.render v ++ "," ++ renderObj fs
end

/-- Python values reaching to_json, distinguished the way the source code
    distinguishes them: natively serializable primitives and containers,
    dates and datetimes (carrying their isoformat string), objects exposing
    cache_id together with for_json, objects exposing for_json, objects
    exposing tolist, other iterables, callables (carrying an opaque token),
    and anything else (unsupported). -/
inductive PyVal where
  | pnull : PyVal
  | pbool (b : Bool) : PyVal
  | pint (n : Int) : PyVal
  | pstr (s : String) : PyVal
  | plistV (xs : List PyVal) : PyVal
  | pdictV (fields : List (String × PyVal)) : PyVal
  | pdate (iso : String) : PyVal
  | cacheObj (id : String) (body : PyVal) : PyVal
  | forJsonObj (body : PyVal) : PyVal
  | tolistObj (xs : List PyVal) : PyVal
  | iterObj (xs : List PyVal) : PyVal
  | pcallable (token : Nat) : PyVal
  | pother : PyVal

/-- The only exception type raised by the serializer. -/
inductive SerErr where
  | typeError : SerErr
deriving DecidableEq

/-- Mutable serialization context: the callback_registry of the widget, the
    cache dict of serialized fragments, and the uuid supply. -/
structure SerState where
  registry : List (String × Nat)
  store : List (String × String)
  nextId : Nat
deriving DecidableEq

/-- First-match lookup in an association list, as in a Python dict. -/
def lookupS {α : Type} : List (String × α) → String → Option α
  | [], _ => none
  | (k, v) :: rest, key => if k = key then some v else lookupS rest key

/-- Python dict assignment: replace in place when the key exists, append
    otherwise (insertion order is preserved). -/
def setKeyS {α : Type} : List (String × α) → String → α → List (String × α)
  | [], key, v => [(key, v)]
  | (k, w) :: rest, key, v =>
    if k = key then (k, v) :: rest else (k, w) :: setKeyS rest key v

/-- The uuid supply: the n-th uuid4 drawn during a run. -/
def freshId (n : Nat) : String := "uuid-" ++ toString n

def cachedTag (id : String) : J :=
  .jobj [("__type__", .jstr "cached"), ("id", .jstr id)]

def callbackTag (id : String) : J :=
  .jobj [("__type__", .jstr "callback"), ("id", .jstr id)]

mutual
/-- orjson.dumps with the default callback defined inside to_json of
    widget.py. hw stands for widget being supplied, hc for cache being
    supplied. orjson natively serializes None, bools, ints, strings, lists,
    dicts and datetime values (emitting the ISO-8601 string for the latter,
    since OPT_PASSTHROUGH_DATETIME is not passed); every other value is
    routed through the branches of the default callback, inlined here. -/
def toJsonVal (hw hc : Bool) : PyVal → SerState → Except SerErr (J × SerState)
  | .pnull, s => .ok (.null, s)
  | .pbool b, s => .ok (.jbool b, s)
  | .pint n, s => .ok (.jint n, s)
  | .pstr t, s => .ok (.jstr t, s)
  | .plistV xs, s =>
    match toJsonArr hw hc xs s with
    | .error e => .error e
    | .ok (js, s1) => .ok (.jarr js, s1)
  | .pdictV fs, s =>
    match toJsonFields hw hc fs s with
    | .error e => .error e
    | .ok (gs, s1) => .ok (.jobj gs, s1)
  | .pdate iso, s => .ok (.jstr iso, s)
  | .cacheObj id body, s =>
    if hc then
      match lookupS s.store id with
      | some _ => .ok (cachedTag id, s)
      | none =>
        match toJsonVal hw hc body s with
        | .error e => .error e
        | .ok (j, s1) =>
          .ok (cachedTag id, { s1 with store := setKeyS s1.store id (J.render j) })
    else
      toJsonVal hw hc body s
  | .forJsonObj body, s => toJsonVal hw hc body s
  | .tolistObj xs, s =>
    match toJsonArr hw hc xs s with
    | .error e => .error e
    | .ok (js, s1) => .ok (.jarr js, s1)
  | .iterObj xs, s =>
    match toJsonArr hw hc xs s with
    | .error e => .error e
    | .ok (js, s1) => .ok (.jarr js, s1)
  | .pcallable tok, s =>
    if hw then
      .ok (callbackTag (freshId s.nextId),
           { s with registry := setKeyS s.registry (freshId s.nextId) tok,
                    nextId := s.nextId + 1 })
    else
      .ok (.null, s)
  | .pother, _ => .error .typeError
termination_by v s => sizeOf v

/-- Serialization of the elements of a list, threading the state. -/
def toJsonArr (hw hc : Bool) : List PyVal → SerState → Except SerErr (List J × SerState)
  | [], s => .ok ([], s)
  | x :: xs, s =>
    match toJsonVal hw hc x s with
    | .error e => .error e
    | .ok (j, s1) =>
      match toJsonArr hw hc xs s1 with
      | .error e => .error e
      | .ok (js, s2) => .ok (j :: js, s2)
termination_by xs s => sizeOf xs

/-- Serialization of the fields of a dict, threading the state. -/
def toJsonFields (hw hc : Bool) :
    List (String × PyVal) → SerState → Except SerErr (List (String × J) × SerState)
  | [], s => .ok ([], s)
  | (k, x) :: fs, s =>
    match toJsonVal hw hc x s with
    | .error e => .error e
    | .ok (j, s1) =>
      match toJsonFields hw hc fs s1 with
      | .error e => .error e
      | .ok (gs, s2) => .ok ((k, j) :: gs, s2)
termination_by fs s => sizeOf fs
end

/-- to_json of widget.py: orjson.dumps(data, default=default).decode. -/
def to_json (hw hc : Bool) (data : PyVal) (s : SerState) : Except SerErr (String × SerState) :=
  match toJsonVal hw hc data s with
  | .error e => .error e
  | .ok (j, s1) => .ok (J.render j, s1)

/-- Cache.entry of widget.py: serialize and store the value on first use of
    an id, and always return the cached tag. The recursive to_json call is
    made with the same cache, so hc is true there. -/
def Cache_entry (hw : Bool) (id : String) (value : PyVal) (s : SerState) :
    Except SerErr (J × SerState) :=
  match lookupS s.store id with
  | some _ => .ok (cachedTag id, s)
  | none =>
    match to_json hw true value s with
    | .error e => .error e
    | .ok (frag, s1) => .ok (cachedTag id, { s1 with store := setKeyS s1.store id frag })

def pyCachedTag (id : String) : PyVal :=
  .pdictV [("__type__", .pstr "cached"), ("id", .pstr id)]

def pyCallbackTag (id : String) : PyVal :=
  .pdictV [("__type__", .pstr "callback"), ("id", .pstr id)]

def pyDatetimeTag (iso : String) : PyVal :=
  .pdictV [("__type__", .pstr "datetime"), ("value", .pstr iso)]

/-- The default closure inside to_json, transcribed branch by branch from the
    source. orjson.dumps only invokes it on values it cannot serialize
    natively, so the branches for native values (strings and dicts are
    Iterable, ints and None raise) and in particular the datetime branch are
    never reached from to_json. -/
def defaultFn (hw hc : Bool) (v : PyVal) (s : SerState) : Except SerErr (PyVal × SerState) :=
  match v with
  | .cacheObj id body =>
    if hc then
      match lookupS s.store id with
      | some _ => .ok (pyCachedTag id, s)
      | none =>
        match to_json hw true body s with
        | .error e => .error e
        | .ok (frag, s1) => .ok (pyCachedTag id, { s1 with store := setKeyS s1.store id frag })
    else
      .ok (body, s)
  | .forJsonObj body => .ok (body, s)
  | .tolistObj xs => .ok (.plistV xs, s)
  | .iterObj xs => .ok (.plistV xs, s)
  | .plistV xs => .ok (.plistV xs, s)
  | .pstr t => .ok (.plistV (t.toList.map (fun c => .pstr (String.singleton c))), s)
  | .pdictV fs => .ok (.plistV (fs.map (fun kv => .pstr kv.fst)), s)
  | .pdate iso => .ok (pyDatetimeTag iso, s)
  | .pcallable tok =>
    if hw then
      .ok (pyCallbackTag (freshId s.nextId),
           { s with registry := setKeyS s.registry (freshId s.nextId) tok,
                    nextId := s.nextId + 1 })
    else
      .ok (.pnull, s)
  | .pnull => .error .typeError
  | .pbool _ => .error .typeError
  | .pint _ => .error .typeError
  | .pother => .error .typeError

mutual
/-- Values built only of JSON primitives, dicts, lists, dates, datetimes and
    objects of the supported shapes (for_json, tolist, cache_id, iterables)
    over such values. -/
def supportedB : PyVal → Bool
  | .pnull => true
  | .pbool _ => true
  | .pint _ => true
  | .pstr _ => true
  | .pdate _ => true
  | .plistV xs => supportedArrB xs
  | .pdictV fs => supportedFieldsB fs
  | .cacheObj _ body => supportedB body
  | .forJsonObj body => supportedB body
  | .tolistObj xs => supportedArrB xs
  | .iterObj xs => supportedArrB xs
  | .pcallable _ => false
  | .pother => false
termination_by v => sizeOf v

def supportedArrB : List PyVal → Bool
  | [] => true
  | x :: xs => supportedB x && supportedArrB xs
termination_by xs => sizeOf xs

def supportedFieldsB : List (String × PyVal) → Bool
  | [] => true
  | (_, x) :: fs => supportedB x && supportedFieldsB fs
termination_by fs => sizeOf fs
end

mutual
/-- Values containing no callable anywhere. -/
def callfreeB : PyVal → Bool
  | .pcallable _ => false
  | .plistV xs => callfreeArrB xs
  | .pdictV fs => callfreeFieldsB fs
  | .cacheObj _ body => callfreeB body
  | .forJsonObj body => callfreeB body
  | .tolistObj xs => callfreeArrB xs
  | .iterObj xs => callfreeArrB xs
  | _ => true
termination_by v => sizeOf v

def callfreeArrB : List PyVal → Bool
  | [] => true
  | x :: xs => callfreeB x && callfreeArrB xs
termination_by xs => sizeOf xs

def callfreeFieldsB : List (String × PyVal) → Bool
  | [] => true
  | (_, x) :: fs => callfreeB x && callfreeFieldsB fs
termination_by fs => sizeOf fs
end

/- Part 2: the PlotSpec composition algebra of src/gen/studio/plot.py.
   Python dicts are modelled as insertion-ordered association lists with
   unique keys; assignment replaces in place or appends at the end, which is
   exactly the insertion-order behaviour of a Python dict. copy.deepcopy is
   the identity on these immutable value trees; object identity and in-place
   mutation are treated separately in the heap model of Part 4. Tuples are
   modelled as lists. -/

/-- Python values appearing inside plot specifications: opaque primitives
    (numbers, booleans, None, with atom 0 standing for the falsy ones),
    strings, lists (and tuples), dicts, PlotSpec objects carrying their spec
    dict, and any other object. -/
inductive PVal where
  | atom (n : Int) : PVal
  | vstr (s : String) : PVal
  | vlist (xs : List PVal) : PVal
  | vdict (fields : List (String × PVal)) : PVal
  | vspec (spec : List (String × PVal)) : PVal
  | vother : PVal

abbrev PDict := List (String × PVal)

/-- Exceptions raised by the composition code. -/
inductive PErr where
  | typeError : PErr
  | valueError : PErr
deriving DecidableEq

/-- _deep_merge of plot.py. Entries of dict2 are folded into dict1 in
    order: when the key maps to dicts on both sides the dicts are merged
    recursively, otherwise the value of dict2 overwrites (copy.deepcopy is
    the identity here). Mutation of dict1 is modelled by returning the
    updated dictionary. -/
def deepMerge : PDict → PDict → PDict
  | d1, [] => d1
  | d1, (k, v) :: rest =>
    match lookupS d1 k, v with
    | some (.vdict a), .vdict b => deepMerge (setKeyS d1 k (.vdict (deepMerge a b))) rest
    | _, _ => deepMerge (setKeyS d1 k v) rest
termination_by d1 d2 => sizeOf d2

/-- Membership test k in d of a Python dict. -/
def hasKeyS (d : PDict) (k : String) : Bool := (lookupS d k).isSome

mutual
/-- _add_list of plot.py: fold the elements of a list or tuple into the
    spec and the marks accumulator. -/
def addList (spec : PDict) (marks : List PVal) : List PVal → Except PErr (PDict × List PVal)
  | [] => .ok (spec, marks)
  | x :: rest =>
    match addItem spec marks x with
    | .error e => .error e
    | .ok (spec1, marks1) => addList spec1 marks1 rest
termination_by l => (sizeOf l, 0)

/-- The dispatch on one element inside _add_list of plot.py: dicts and the
    specs of PlotSpec objects are added as dicts, lists and tuples are
    walked recursively, anything else raises ValueError. -/
def addItem (spec : PDict) (marks : List PVal) : PVal → Except PErr (PDict × List PVal)
  | .vdict d => addDict spec marks d
  | .vspec d => addDict spec marks d
  | .vlist xs => addList spec marks xs
  | _ => .error .valueError
termination_by v => (sizeOf v, 0)

/-- _add_dict of plot.py: a dict carrying pyobsplot-type is a mark and is
    appended to the marks list; any other dict is deep-merged into the spec
    and its marks entry, when present and truthy, is walked by _add_list. -/
def addDict (spec : PDict) (marks : List PVal) (d : PDict) : Except PErr (PDict × List PVal) :=
  if hasKeyS d "pyobsplot-type" then .ok (spec, marks ++ [.vdict d])
  else addMarks (deepMerge spec d) marks d
termination_by (sizeOf d, 1)

/-- The to_add.get of _add_dict, as a scan for the first marks entry of the
    dict being added (Python dicts have unique keys, so this agrees with
    lookup), followed by the truthiness dispatch of the source: a falsy
    value (None, 0, False, empty list, empty string, empty dict) is
    skipped; a non-empty list is fed to _add_list; iterating a non-empty
    string or dict yields strings, which _add_list rejects with ValueError;
    the remaining truthy values are not iterable, so iterating them raises
    TypeError. -/
def addMarks (spec : PDict) (marks : List PVal) : PDict → Except PErr (PDict × List PVal)
  | [] => .ok (spec, marks)
  | (k, v) :: rest =>
    if k = "marks" then
      match v with
      | .vlist [] => .ok (spec, marks)
      | .vlist xs => addList spec marks xs
      | .vstr t => if t = "" then .ok (spec, marks) else .error .valueError
      | .vdict [] => .ok (spec, marks)
      | .vdict _ => .error .valueError
      | .atom n => if n = 0 then .ok (spec, marks) else .error .typeError
      | .vspec _ => .error .typeError
      | .vother => .error .typeError
    else addMarks spec marks rest
termination_by d => (sizeOf d, 0)
end

/-- _add of plot.py: the dispatch on the right operand of +. -/
def addVal (spec : PDict) (marks : List PVal) : PVal → Except PErr (PDict × List PVal)
  | .vlist xs => addList spec marks xs
  | .vdict d => addDict spec marks d
  | .vspec d => addDict spec marks d
  | _ => .error .typeError

/-- PlotSpec.__init__ of plot.py: start from a spec holding an empty marks
    list and an empty marks accumulator, add the positional specs and the
    keyword options, then store the accumulated marks under the marks key.
    The source guards the two add calls behind emptiness tests; on empty
    input both calls are the identity, so the guards are dropped here. -/
def plotSpecInit (specs : List PVal) (kwargs : PDict) : Except PErr PDict :=
  match addList [("marks", .vlist [])] [] specs with
  | .error e => .error e
  | .ok (spec1, marks1) =>
    match addDict spec1 marks1 kwargs with
    | .error e => .error e
    | .ok (spec2, marks2) => .ok (setKeyS spec2 "marks" (.vlist marks2))

/-- PlotSpec.__add__ of plot.py: shallow-copy the spec and the marks list,
    add the operand, store the marks, and run the result through the
    PlotSpec constructor. A spec built by the constructor always holds a
    list under marks; the fallback branch models the failure that reading
    spec["marks"] would be on any other value. -/
def psAdd (self : PDict) (toAdd : PVal) : Except PErr PDict :=
  match lookupS self "marks" with
  | some (.vlist ms) =>
    (match addVal self ms toAdd with
     | .error e => .error e
     | .ok (spec, marks) => plotSpecInit [.vdict (setKeyS spec "marks" (.vlist marks))] [])
  | _ => .error .typeError

/-- margin of plot.py: CSS-style shorthand expansion over the number of
    arguments, raising ValueError on any other arity. -/
def margin : List PVal → Except PErr PDict
  | [a] => .ok [("margin", a)]
  | [v, h] => .ok [("marginTop", v), ("marginBottom", v), ("marginLeft", h), ("marginRight", h)]
  | [t, h, b] => .ok [("marginTop", t), ("marginLeft", h), ("marginRight", h), ("marginBottom", b)]
  | [t, r, b, l] => .ok [("marginTop", t), ("marginRight", r), ("marginBottom", b), ("marginLeft", l)]
  | _ => .error .valueError

/-- A mark: a dict carrying the pyobsplot-type tag. -/
def isMark : PVal → Bool
  | .vdict d => hasKeyS d "pyobsplot-type"
  | _ => false

/-- Operands of + that hit the TypeError branch of _add: neither PlotSpec,
    nor dict, nor list, nor tuple. -/
def isInvalidOperand : PVal → Bool
  | .atom _ => true
  | .vstr _ => true
  | .vother => true
  | _ => false

/-- Elements of an added list that hit the ValueError branch of _add_list:
    neither dict, nor PlotSpec, nor list, nor tuple. -/
def isInvalidElem : PVal → Bool
  | .atom _ => true
  | .vstr _ => true
  | .vother => true
  | _ => false

/-- The merged value under one key, as claim C1 words it: when both sides
    hold a dict the dicts are merged recursively, otherwise the right-hand
    value overwrites the left-hand one. -/
def claimMergedValue : Option PVal → Option PVal → Option PVal
  | some (.vdict a), some (.vdict b) => some (.vdict (deepMerge a b))
  | _, some v => some v
  | o, none => o

/- Part 3: get_in and Dimensioned of src/genstudio/plot.py (the GenJAX
   trace and choicemap branches are out of scope; data is plain dicts and
   lists). -/

/-- One segment of a get_in path: a string key, a dimension-naming dict
    segment written as a dict with an ellipsis key, or a leaves-naming dict
    segment. -/
inductive Seg where
  | key (k : String) : Seg
  | dim (name : String) : Seg
  | leaf (name : String) : Seg
deriving DecidableEq

/-- One entry of Dimensioned.dimensions after _rename_key: a dict of the
    shape written key: name, or of the shape leaves: name. -/
inductive PathDim where
  | dkey (name : String) : PathDim
  | dleaves (name : String) : PathDim
deriving DecidableEq

mutual
/-- process_segment inside get_in of plot.py: walk the remaining path,
    indexing dicts by key, mapping the rest of the path over every element
    of a list at a dimension segment, and stopping at a leaves segment.
    Subscripting a non-dict and a missing key both raise in Python
    (TypeError and KeyError); both are collapsed into the error result. -/
def processSegment : PVal → List Seg → Except PErr PVal
  | v, [] => .ok v
  | v, .key k :: rest =>
    (match v with
     | .vdict d =>
       match lookupS d k with
       | some v1 => processSegment v1 rest
       | none => .error .typeError
     | _ => .error .typeError)
  | v, .dim _ :: rest =>
    (match v with
     | .vlist xs =>
       match processSegList xs rest with
       | .error e => .error e
       | .ok ys => .ok (.vlist ys)
     | _ => .error .typeError)
  | v, .leaf _ :: _ => .ok v
termination_by v segs => (segs.length, 0)

/-- The list comprehension inside process_segment. -/
def processSegList : List PVal → List Seg → Except PErr (List PVal)
  | [], _ => .ok []
  | x :: xs, rest =>
    match processSegment x rest with
    | .error e => .error e
    | .ok y =>
      match processSegList xs rest with
      | .error e => .error e
      | .ok ys => .ok (y :: ys)
termination_by xs segs => (segs.length, xs.length + 1)
end

/-- Dimensioned of plot.py: the extracted value together with the renamed
    dict segments of the path. -/
structure Dimensioned where
  value : PVal
  dimensions : List PathDim

/-- The result of get_in: a raw value when no dict segment named anything,
    a Dimensioned value otherwise. -/
inductive GetInResult where
  | raw (v : PVal) : GetInResult
  | dimd (d : Dimensioned) : GetInResult

def isDictSeg : Seg → Bool
  | .key _ => false
  | _ => true

/-- The dimensions list built by Dimensioned.__init__: the dict segments of
    the path, with the ellipsis key renamed to key. -/
def dimsOfPath (path : List Seg) : List PathDim :=
  path.filterMap fun s =>
    match s with
    | .key _ => none
    | .dim n => some (.dkey n)
    | .leaf n => some (.dleaves n)

/-- get_in of plot.py on plain dict and list data. -/
def getIn (data : PVal) (path : List Seg) : Except PErr GetInResult :=
  match processSegment data path with
  | .error e => .error e
  | .ok v =>
    if path.any isDictSeg then .ok (.dimd ⟨v, dimsOfPath path⟩) else .ok (.raw v)

/-- The dict union prefix | value of Python, folding the right dict into
    the left with assignment semantics. -/
def unionD (a b : PDict) : PDict :=
  b.foldl (fun acc kv => setKeyS acc kv.fst kv.snd) a

mutual
/-- _flatten inside Dimensioned.flatten of plot.py. The prefix accumulates
    the dimension indices of the record being built. At the base, the leaf
    value is wrapped under the leaves name when one was given, and must
    itself be a dict otherwise (the union with a non-dict raises; with an
    empty prefix the source would return the bare value, a case flatten
    never reaches since its dimensions list is non-empty). A dleaves entry
    before the last position has no key entry, so reading dims[0]["key"]
    raises KeyError. -/
def flattenAux (leafName : Option String) : PVal → List PathDim → PDict → Except PErr (List PDict)
  | v, [], pfx =>
    (match leafName with
     | some L => .ok [unionD pfx [(L, v)]]
     | none =>
       match v with
       | .vdict dv => .ok [unionD pfx dv]
       | _ => .error .typeError)
  | v, .dkey n :: dims, pfx =>
    (match v with
     | .vlist xs => flattenList leafName n xs 0 dims pfx
     | _ => .error .typeError)
  | _, .dleaves _ :: _, _ => .error .typeError
termination_by v dims pfx => (dims.length, 0)

/-- The enumerate loop inside _flatten: each element is flattened with the
    current dimension name bound to its index in the record prefix. -/
def flattenList (leafName : Option String) (n : String) :
    List PVal → Nat → List PathDim → PDict → Except PErr (List PDict)
  | [], _, _, _ => .ok []
  | x :: xs, i, dims, pfx =>
    match flattenAux leafName x dims (setKeyS pfx n (.atom i)) with
    | .error e => .error e
    | .ok rs =>
      match flattenList leafName n xs (i + 1) dims pfx with
      | .error e => .error e
      | .ok rss => .ok (rs ++ rss)
termination_by xs i dims pfx => (dims.length, xs.length + 1)
end

/-- Dimensioned.flatten of plot.py: read the leaves name off the last
    dimension when present, drop it from the dimension list, and run
    _flatten with an empty prefix. Reading dimensions[-1] of an empty list
    raises IndexError, modelled as the error result. -/
def Dimensioned.flatten (d : Dimensioned) : Except PErr (List PDict) :=
  match d.dimensions.getLast? with
  | none => .error .typeError
  | some (.dleaves L) => flattenAux (some L) d.value d.dimensions.dropLast []
  | some (.dkey _) => flattenAux none d.value d.dimensions []

/-- Written from the words of claim C7: one record per leaf, in row-major
    (depth-first, left-to-right) order; each record maps every named
    dimension, in order, to the index of the leaf along that dimension and
    finally maps the leaves name to the leaf value. -/
def claimFlatten : List String → String → PVal → List PDict
  | [], L, v => [[(L, v)]]
  | n :: names, L, .vlist xs =>
    xs.enum.flatMap fun p => (claimFlatten names L p.snd).map fun r => (n, .atom p.fst) :: r
  | _ :: _, _, _ => []
termination_by names _ _ => names.length

/-- Nested lists to depth n, the shape guaranteed for the value extracted
    along a path of n dimension segments. -/
def shapedB : Nat → PVal → Bool
  | 0, _ => true
  | n + 1, .vlist xs => xs.all fun x => shapedB n x
  | _ + 1, _ => false

/- Part 4: a small heap model of Python object identity, used to observe
   the in-place mutation performed by PlotSpec.__add__ through _deep_merge.
   Dicts and lists live at addresses; values are primitives or references.
   Every function consumes fuel; the concrete runs below use ample fuel.
   copy.deepcopy is modelled as a tree copy (the memo sharing of deepcopy
   is not needed by the inputs considered here). -/

/-- Heap values: primitives, dict references, list references, and PlotSpec
    objects carrying the address of their spec dict. -/
inductive HV where
  | hint (n : Int) : HV
  | hstr (s : String) : HV
  | dref (a : Nat) : HV
  | lref (a : Nat) : HV
  | pref (a : Nat) : HV
deriving DecidableEq

/-- The heap: dict objects and list objects, addressed by position. -/
structure Heap where
  ds : List (List (String × HV))
  ls : List (List HV)
deriving DecidableEq

def Heap.getDict (h : Heap) (a : Nat) : List (String × HV) := (h.ds.get? a).getD []

def Heap.setDict (h : Heap) (a : Nat) (d : List (String × HV)) : Heap :=
  { h with ds := h.ds.set a d }

def Heap.getList (h : Heap) (a : Nat) : List HV := (h.ls.get? a).getD []

def Heap.setList (h : Heap) (a : Nat) (xs : List HV) : Heap :=
  { h with ls := h.ls.set a xs }

def Heap.allocDict (h : Heap) (d : List (String × HV)) : Nat × Heap :=
  (h.ds.length, { h with ds := h.ds ++ [d] })

def Heap.allocList (h : Heap) (xs : List HV) : Nat × Heap :=
  (h.ls.length, { h with ls := h.ls ++ [xs] })

mutual
/-- copy.deepcopy on one heap value. -/
def hCopyVal : Nat → Heap → HV → Option (HV × Heap)
  | 0, _, _ => none
  | fuel + 1, h, .dref a =>
    (match hCopyFields fuel h (h.getDict a) with
     | some (d, h1) =>
       match h1.allocDict d with
       | (a1, h2) => some (.dref a1, h2)
     | none => none)
  | fuel + 1, h, .lref a =>
    (match hCopyVals fuel h (h.getList a) with
     | some (xs, h1) =>
       match h1.allocList xs with
       | (a1, h2) => some (.lref a1, h2)
     | none => none)
  | _ + 1, h, v => some (v, h)

/-- copy.deepcopy on dict entries. -/
def hCopyFields : Nat → Heap → List (String × HV) → Option (List (String × HV) × Heap)
  | 0, _, _ => none
  | _ + 1, h, [] => some ([], h)
  | fuel + 1, h, (k, v) :: rest =>
    match hCopyVal fuel h v with
    | some (w, h1) =>
      (match hCopyFields fuel h1 rest with
       | some (ws, h2) => some ((k, w) :: ws, h2)
       | none => none)
    | none => none

/-- copy.deepcopy on list elements. -/
def hCopyVals : Nat → Heap → List HV → Option (List HV × Heap)
  | 0, _, _ => none
  | _ + 1, h, [] => some ([], h)
  | fuel + 1, h, v :: rest =>
    match hCopyVal fuel h v with
    | some (w, h1) =>
      (match hCopyVals fuel h1 rest with
       | some (ws, h2) => some ((w :: ws), h2)
       | none => none)
    | none => none
end

mutual
/-- _deep_merge over the heap: fold the entries of the dict at a2 into the
    dict at a1, mutating a1 and the nested dicts of a1 in place, exactly as
    the source does. The returned dict1 is the dict at a1 itself. -/
def hDeepMerge : Nat → Heap → Nat → Nat → Option Heap
  | 0, _, _, _ => none
  | fuel + 1, h, a1, a2 => hMergeEntries fuel h a1 (h.getDict a2)

/-- The loop over dict2.items() of _deep_merge. -/
def hMergeEntries : Nat → Heap → Nat → List (String × HV) → Option Heap
  | 0, _, _, _ => none
  | _ + 1, h, _, [] => some h
  | fuel + 1, h, a1, (k, v) :: rest =>
    match lookupS (h.getDict a1) k, v with
    | some (.dref b1), .dref b2 =>
      (match hDeepMerge fuel h b1 b2 with
       | some h1 => hMergeEntries fuel (h1.setDict a1 (setKeyS (h1.getDict a1) k (.dref b1))) a1 rest
       | none => none)
    | _, .dref b2 =>
      (match hCopyVal fuel h (.dref b2) with
       | some (w, h1) => hMergeEntries fuel (h1.setDict a1 (setKeyS (h1.getDict a1) k w)) a1 rest
       | none => none)
    | _, _ => hMergeEntries fuel (h.setDict a1 (setKeyS (h.getDict a1) k v)) a1 rest
end

mutual
/-- _add_list over the heap. -/
def hAddList : Nat → Heap → Nat → Nat → List HV → Option Heap
  | 0, _, _, _, _ => none
  | _ + 1, h, _, _, [] => some h
  | fuel + 1, h, specA, marksA, x :: xs =>
    match hAddItem fuel h specA marksA x with
    | some h1 => hAddList fuel h1 specA marksA xs
    | none => none

/-- The element dispatch of _add_list over the heap. -/
def hAddItem : Nat → Heap → Nat → Nat → HV → Option Heap
  | 0, _, _, _, _ => none
  | fuel + 1, h, specA, marksA, .dref d => hAddDict fuel h specA marksA d
  | fuel + 1, h, specA, marksA, .pref p => hAddDict fuel h specA marksA p
  | fuel + 1, h, specA, marksA, .lref la => hAddList fuel h specA marksA (h.getList la)
  | _ + 1, _, _, _, _ => none

/-- _add_dict over the heap. Non-list truthy marks values are collapsed
    into the failure result. -/
def hAddDict : Nat → Heap → Nat → Nat → Nat → Option Heap
  | 0, _, _, _, _ => none
  | fuel + 1, h, specA, marksA, dA =>
    if (lookupS (h.getDict dA) "pyobsplot-type").isSome then
      some (h.setList marksA (h.getList marksA ++ [.dref dA]))
    else
      match hDeepMerge fuel h specA dA with
      | none => none
      | some h1 =>
        match lookupS (h1.getDict dA) "marks" with
        | some (.lref la) =>
          (match h1.getList la with
           | [] => some h1
           | xs => hAddList fuel h1 specA marksA xs)
        | some _ => none
        | none => some h1
end

/-- _add over the heap. -/
def hAddVal (fuel : Nat) (h : Heap) (specA marksA : Nat) (v : HV) : Option Heap :=
  match v with
  | .lref la => hAddList fuel h specA marksA (h.getList la)
  | .dref d => hAddDict fuel h specA marksA d
  | .pref p => hAddDict fuel h specA marksA p
  | _ => none

/-- PlotSpec.__init__ over the heap. -/
def hPlotSpecInit (fuel : Nat) (h : Heap) (specs : List HV) : Option (Nat × Heap) :=
  match h.allocList [] with
  | (l0, h1) =>
    match h1.allocDict [("marks", .lref l0)] with
    | (a0, h2) =>
      match h2.allocList [] with
      | (m0, h3) =>
        match hAddList fuel h3 a0 m0 specs with
        | none => none
        | some h4 => some (a0, h4.setDict a0 (setKeyS (h4.getDict a0) "marks" (.lref m0)))

/-- PlotSpec.__add__ over the heap: shallow-copy the spec dict, copy the
    marks list, add the operand, store the marks, and run the constructor
    on the combined spec. -/
def hPsAdd (fuel : Nat) (h : Heap) (selfSpec : Nat) (toAdd : HV) : Option (Nat × Heap) :=
  match h.allocDict (h.getDict selfSpec) with
  | (sA, h1) =>
    match lookupS (h1.getDict sA) "marks" with
    | some (.lref ma) =>
      (match h1.allocList (h1.getList ma) with
       | (mA, h2) =>
         match hAddVal fuel h2 sA mA toAdd with
         | none => none
         | some h3 =>
           hPlotSpecInit fuel (h3.setDict sA (setKeyS (h3.getDict sA) "marks" (.lref mA))) [.dref sA])
    | _ => none

/-- The concrete heap of the mutation run: the spec of a PlotSpec p lives
    at dict address 0 and holds an empty marks list (list address 0) and an
    option dict at address 1; the added options dict lives at address 2 and
    holds a fresh dict at address 3 under the same key x. -/
def c9Heap : Heap :=
  ⟨[[("marks", .lref 0), ("x", .dref 1)],
    [("d", .hint 1)],
    [("x", .dref 3)],
    [("d", .hint 2)]],
   [[]]⟩

/-- Agreement of two serializer results up to the callback registry and
    the uuid supply: the same error, or the same output together with the
    same cache store. -/
def sameOutG {alpha : Type} (r1 r2 : Except SerErr (alpha × SerState)) : Prop :=
  match r1, r2 with
  | .ok (a1, t1), .ok (a2, t2) => a1 = a2 ∧ t1.store = t2.store
  | .error e1, .error e2 => e1 = e2
  | _, _ => False

/-- The value stored for one key during a _deep_merge step: a recursive
    merge when both sides are dicts, the right-hand value otherwise. -/
def mergeOne : Option PVal → PVal → PVal
  | some (.vdict a), .vdict b => .vdict (deepMerge a b)
  | _, v => v

/- Theorems. First, lemmas about association-list dictionaries. -/

theorem lookupS_setKeyS_self {α : Type} (d : List (String × α)) (k : String) (v : α) :
    lookupS (setKeyS d k v) k = some v := by
  induction d with
  | nil => simp [setKeyS, lookupS]
  | cons hd tl ih =>
    obtain ⟨k0, w⟩ := hd
    by_cases hk : k0 = k
    · simp [setKeyS, lookupS, hk]
    · simp [setKeyS, lookupS, hk, ih]

theorem lookupS_setKeyS_ne {α : Type} (d : List (String × α)) (k k1 : String) (v : α)
    (h : k1 ≠ k) : lookupS (setKeyS d k v) k1 = lookupS d k1 := by
  induction d with
  | nil => simp [setKeyS, lookupS, Ne.symm h]
  | cons hd tl ih =>
    obtain ⟨k0, w⟩ := hd
    by_cases hk : k0 = k
    · subst hk
      simp [setKeyS, lookupS, Ne.symm h]
    · simp [setKeyS, lookupS, hk, ih]

theorem keys_setKeyS {α : Type} (d : List (String × α)) (k : String) (v : α) :
    (setKeyS d k v).map Prod.fst =
      if k ∈ d.map Prod.fst then d.map Prod.fst else d.map Prod.fst ++ [k] := by
  induction d with
  | nil => simp [setKeyS]
  | cons hd tl ih =>
    obtain ⟨k0, w⟩ := hd
    by_cases hk : k0 = k
    · subst hk
      simp [setKeyS]
    · simp only [setKeyS, if_neg hk, List.map_cons, ih]
      by_cases hm : k ∈ tl.map Prod.fst
      · simp [hm, Ne.symm hk]
      · simp [hm, Ne.symm hk]

theorem nodupKeys_setKeyS {α : Type} (d : List (String × α)) (k : String) (v : α)
    (h : (d.map Prod.fst).Nodup) : ((setKeyS d k v).map Prod.fst).Nodup := by
  rw [keys_setKeyS]
  by_cases hm : k ∈ d.map Prod.fst
  · simp [hm, h]
  · simp [hm, List.nodup_append, h, List.disjoint_singleton]

theorem lookupS_eq_none {α : Type} (d : List (String × α)) (k : String)
    (h : k ∉ d.map Prod.fst) : lookupS d k = none := by
  induction d with
  | nil => simp [lookupS]
  | cons hd tl ih =>
    obtain ⟨k0, w⟩ := hd
    simp only [List.map_cons, List.mem_cons] at h
    push_neg at h
    simp [lookupS, Ne.symm h.1, ih h.2]

theorem lookupS_append {α : Type} (a b : List (String × α)) (k : String) :
    lookupS (a ++ b) k =
      match lookupS a k with
      | some v => some v
      | none => lookupS b k := by
  induction a with
  | nil => simp [lookupS]
  | cons hd tl ih =>
    obtain ⟨k0, w⟩ := hd
    by_cases hk : k0 = k
    · simp [lookupS, hk]
    · simp [lookupS, hk, ih]

theorem setKeyS_not_mem {α : Type} (d : List (String × α)) (k : String) (v : α)
    (h : k ∉ d.map Prod.fst) : setKeyS d k v = d ++ [(k, v)] := by
  induction d with
  | nil => simp [setKeyS]
  | cons hd tl ih =>
    obtain ⟨k0, w⟩ := hd
    simp only [List.map_cons, List.mem_cons] at h
    push_neg at h
    simp [setKeyS, Ne.symm h.1, ih h.2]

/- Lemmas about _deep_merge. -/

theorem deepMerge_cons (d1 : PDict) (k0 : String) (v : PVal) (rest : PDict) :
    deepMerge d1 ((k0, v) :: rest) =
      deepMerge (setKeyS d1 k0 (mergeOne (lookupS d1 k0) v)) rest := by
  cases h : lookupS d1 k0 with
  | none => cases v <;> simp [deepMerge, mergeOne, h]
  | some w => cases w <;> cases v <;> simp [deepMerge, mergeOne, h]

theorem claimMergedValue_none_right (o : Option PVal) :
    claimMergedValue o none = o := by
  cases o with
  | none => rfl
  | some w => cases w <;> simp [claimMergedValue]

theorem claimMergedValue_none_left (o : Option PVal) :
    claimMergedValue none o = o := by
  cases o with
  | none => rfl
  | some w => cases w <;> simp [claimMergedValue]

theorem claimMergedValue_some (o : Option PVal) (v : PVal) :
    claimMergedValue o (some v) = some (mergeOne o v) := by
  cases o with
  | none => cases v <;> simp [claimMergedValue, mergeOne]
  | some w => cases w <;> cases v <;> simp [claimMergedValue, mergeOne]

theorem lookupS_deepMerge (d2 : PDict) : ∀ (d1 : PDict) (k : String),
    (d2.map Prod.fst).Nodup →
    lookupS (deepMerge d1 d2) k = claimMergedValue (lookupS d1 k) (lookupS d2 k) := by
  induction d2 with
  | nil =>
    intro d1 k h
    simp [deepMerge, lookupS, claimMergedValue_none_right]
  | cons hd rest ih =>
    obtain ⟨k0, v⟩ := hd
    intro d1 k hnd
    simp only [List.map_cons, List.nodup_cons] at hnd
    rw [deepMerge_cons, ih _ k hnd.2]
    by_cases hk : k = k0
    · subst hk
      rw [lookupS_eq_none rest k hnd.1, lookupS_setKeyS_self]
      simp [lookupS, claimMergedValue_none_right, claimMergedValue_some]
    · rw [lookupS_setKeyS_ne _ _ _ _ hk]
      simp [lookupS, Ne.symm hk]

theorem nodupKeys_deepMerge (d2 : PDict) : ∀ d1 : PDict,
    (d1.map Prod.fst).Nodup → ((deepMerge d1 d2).map Prod.fst).Nodup := by
  induction d2 with
  | nil =>
    intro d1 h
    simpa [deepMerge] using h
  | cons hd rest ih =>
    obtain ⟨k0, v⟩ := hd
    intro d1 h
    rw [deepMerge_cons]
    exact ih _ (nodupKeys_setKeyS d1 k0 _ h)

/- Lemmas about _add_list and the marks dispatch. -/

theorem addList_all_marks (ms : List PVal) : ∀ (spec : PDict) (marks : List PVal),
    (∀ m ∈ ms, isMark m = true) → addList spec marks ms = .ok (spec, marks ++ ms) := by
  induction ms with
  | nil =>
    intro spec marks h
    simp [addList]
  | cons m rest ih =>
    intro spec marks h
    have hm := h m (by simp)
    cases m with
    | vdict d =>
      simp only [isMark] at hm
      simp only [addList, addItem, addDict, hm, if_pos]
      rw [ih _ _ (fun x hx => h x (by simp [hx]))]
      simp
    | atom n => simp [isMark] at hm
    | vstr s => simp [isMark] at hm
    | vlist xs => simp [isMark] at hm
    | vspec d => simp [isMark] at hm
    | vother => simp [isMark] at hm

theorem addMarks_of_none (d : PDict) : ∀ (spec : PDict) (marks : List PVal),
    lookupS d "marks" = none → addMarks spec marks d = .ok (spec, marks) := by
  induction d with
  | nil =>
    intro spec marks h
    rw [addMarks.eq_def]
  | cons hd rest ih =>
    obtain ⟨k, v⟩ := hd
    intro spec marks h
    simp only [lookupS] at h
    by_cases hk : k = "marks"
    · simp [hk] at h
    · simp only [if_neg hk] at h
      rw [addMarks.eq_def]
      simp [hk, ih _ _ h]

theorem addMarks_of_nil (d : PDict) : ∀ (spec : PDict) (marks : List PVal),
    lookupS d "marks" = some (.vlist []) → addMarks spec marks d = .ok (spec, marks) := by
  induction d with
  | nil =>
    intro spec marks h
    simp [lookupS] at h
  | cons hd rest ih =>
    obtain ⟨k, v⟩ := hd
    intro spec marks h
    simp only [lookupS] at h
    by_cases hk : k = "marks"
    · simp only [if_pos hk] at h
      cases h
      rw [addMarks.eq_def]
      simp [hk]
    · simp only [if_neg hk] at h
      rw [addMarks.eq_def]
      simp [hk, ih _ _ h]

theorem addMarks_of_cons (d : PDict) : ∀ (spec : PDict) (marks : List PVal) (y : PVal) (ys : List PVal),
    lookupS d "marks" = some (.vlist (y :: ys)) →
    addMarks spec marks d = addList spec marks (y :: ys) := by
  induction d with
  | nil =>
    intro spec marks y ys h
    simp [lookupS] at h
  | cons hd rest ih =>
    obtain ⟨k, v⟩ := hd
    intro spec marks y ys h
    simp only [lookupS] at h
    by_cases hk : k = "marks"
    · simp only [if_pos hk] at h
      cases h
      rw [addMarks.eq_def]
      simp [hk]
    · simp only [if_neg hk] at h
      rw [addMarks.eq_def]
      simp [hk, ih _ _ _ _ h]

theorem addList_append (xs : List PVal) : ∀ (ys : List PVal) (spec : PDict) (marks : List PVal),
    addList spec marks (xs ++ ys) =
      match addList spec marks xs with
      | .error e => .error e
      | .ok (s1, m1) => addList s1 m1 ys := by
  induction xs with
  | nil =>
    intro ys spec marks
    simp [addList]
  | cons x rest ih =>
    intro ys spec marks
    simp only [List.cons_append, addList]
    cases h : addItem spec marks x with
    | error e => simp
    | ok p =>
      obtain ⟨s1, m1⟩ := p
      simp [ih]

/-- Running the PlotSpec constructor over a combined spec dict, as the tail
    of __add__ does: the marks list is preserved and every other key keeps
    the value it had in the combined spec. -/
theorem plotSpecInit_final (spec1 : PDict) (marks1 : List PVal)
    (hnd : (spec1.map Prod.fst).Nodup)
    (ht : lookupS spec1 "pyobsplot-type" = none)
    (hmk : ∀ m ∈ marks1, isMark m = true) :
    ∃ r, plotSpecInit [.vdict (setKeyS spec1 "marks" (PVal.vlist marks1))] [] = .ok r
      ∧ lookupS r "marks" = some (PVal.vlist marks1)
      ∧ ∀ k, k ≠ "marks" → lookupS r k = lookupS spec1 k := by
  have hne : ("pyobsplot-type" : String) ≠ "marks" := by decide
  have hnd2 := nodupKeys_setKeyS spec1 "marks" (PVal.vlist marks1) hnd
  have ht2 : lookupS (setKeyS spec1 "marks" (PVal.vlist marks1)) "pyobsplot-type" = none := by
    rw [lookupS_setKeyS_ne _ _ _ _ hne]
    exact ht
  have hm2 : lookupS (setKeyS spec1 "marks" (PVal.vlist marks1)) "marks" = some (PVal.vlist marks1) :=
    lookupS_setKeyS_self _ _ _
  have hdict : addDict [("marks", PVal.vlist [])] []
      (setKeyS spec1 "marks" (PVal.vlist marks1)) =
      .ok (deepMerge [("marks", PVal.vlist [])] (setKeyS spec1 "marks" (PVal.vlist marks1)), marks1) := by
    simp only [addDict, hasKeyS, ht2, Option.isSome_none, Bool.false_eq_true, if_false]
    cases marks1 with
    | nil => rw [addMarks_of_nil _ _ _ hm2]
    | cons y ys =>
      rw [addMarks_of_cons _ _ _ _ _ hm2, addList_all_marks _ _ _ hmk]
      simp
  have hadd : addList [("marks", PVal.vlist [])] []
      [.vdict (setKeyS spec1 "marks" (PVal.vlist marks1))] =
      .ok (deepMerge [("marks", PVal.vlist [])] (setKeyS spec1 "marks" (PVal.vlist marks1)), marks1) := by
    simp only [addList, addItem]
    rw [hdict]
  have hkw : addDict (deepMerge [("marks", PVal.vlist [])] (setKeyS spec1 "marks" (PVal.vlist marks1)))
      marks1 [] =
      .ok (deepMerge [("marks", PVal.vlist [])] (setKeyS spec1 "marks" (PVal.vlist marks1)), marks1) := by
    simp only [addDict, hasKeyS, lookupS, Option.isSome_none, Bool.false_eq_true, if_false]
    rw [addMarks.eq_def]
    simp [deepMerge]
  refine ⟨setKeyS (deepMerge [("marks", PVal.vlist [])] (setKeyS spec1 "marks" (PVal.vlist marks1)))
      "marks" (PVal.vlist marks1), ?_, ?_, ?_⟩
  · simp [plotSpecInit, hadd, hkw]
  · exact lookupS_setKeyS_self _ _ _
  · intro k hk
    rw [lookupS_setKeyS_ne _ _ _ _ hk, lookupS_deepMerge _ _ _ hnd2]
    have hb : lookupS [("marks", PVal.vlist [])] k = none := by
      simp [lookupS, Ne.symm hk]
    rw [hb, claimMergedValue_none_left, lookupS_setKeyS_ne _ _ _ _ hk]

/-- C1: the + operator of PlotSpec concatenates the mark lists of the two
    operands in left-to-right order into the marks entry of the result, and
    merges every non-mark option entry recursively: when both sides hold a
    dict under the same key the dicts are deep-merged, otherwise the
    right-hand value overwrites the left-hand one. Stated for a PlotSpec
    right operand, a dict-of-options right operand, and a list-of-marks
    right operand (tuples are modelled as lists). -/
theorem c1_add_concatenates_marks_and_merges_options (p : PDict) (pm : List PVal)
    (hpm : lookupS p "marks" = some (PVal.vlist pm))
    (hpnd : (p.map Prod.fst).Nodup)
    (hpt : lookupS p "pyobsplot-type" = none)
    (hpmk : ∀ m ∈ pm, isMark m = true) :
    (∀ (q : PDict) (qm : List PVal),
        lookupS q "marks" = some (PVal.vlist qm) → (q.map Prod.fst).Nodup →
        lookupS q "pyobsplot-type" = none → (∀ m ∈ qm, isMark m = true) →
        ∃ r, psAdd p (PVal.vspec q) = .ok r ∧
          lookupS r "marks" = some (PVal.vlist (pm ++ qm)) ∧
          ∀ k, k ≠ "marks" → lookupS r k = claimMergedValue (lookupS p k) (lookupS q k))
    ∧ (∀ d : PDict,
        (d.map Prod.fst).Nodup →
        lookupS d "pyobsplot-type" = none → lookupS d "marks" = none →
        ∃ r, psAdd p (PVal.vdict d) = .ok r ∧
          lookupS r "marks" = some (PVal.vlist pm) ∧
          ∀ k, k ≠ "marks" → lookupS r k = claimMergedValue (lookupS p k) (lookupS d k))
    ∧ (∀ ms : List PVal, (∀ m ∈ ms, isMark m = true) →
        ∃ r, psAdd p (PVal.vlist ms) = .ok r ∧
          lookupS r "marks" = some (PVal.vlist (pm ++ ms)) ∧
          ∀ k, k ≠ "marks" → lookupS r k = lookupS p k) := by
  refine ⟨?_, ?_, ?_⟩
  · intro q qm hqm hqnd hqt hqmk
    have hmerge : addDict p pm q = .ok (deepMerge p q, pm ++ qm) := by
      simp only [addDict, hasKeyS, hqt, Option.isSome_none, Bool.false_eq_true, if_false]
      have hqm2 : lookupS q "marks" = some (PVal.vlist qm) := hqm
      cases qm with
      | nil =>
        rw [addMarks_of_nil _ _ _ hqm2]
        simp
      | cons y ys =>
        rw [addMarks_of_cons _ _ _ _ _ hqm2, addList_all_marks _ _ _ hqmk]
    have hnds := nodupKeys_deepMerge q p hpnd
    have hts : lookupS (deepMerge p q) "pyobsplot-type" = none := by
      rw [lookupS_deepMerge _ _ _ hqnd, hpt, hqt]
      rfl
    have hmks : ∀ m ∈ pm ++ qm, isMark m = true := by
      intro m hm
      rcases List.mem_append.mp hm with h | h
      · exact hpmk m h
      · exact hqmk m h
    obtain ⟨r, hr1, hr2, hr3⟩ := plotSpecInit_final (deepMerge p q) (pm ++ qm) hnds hts hmks
    refine ⟨r, ?_, hr2, ?_⟩
    · simp only [psAdd, hpm, addVal]
      rw [hmerge]
      exact hr1
    · intro k hk
      rw [hr3 k hk, lookupS_deepMerge _ _ _ hqnd]
  · intro d hdnd hdt hdm
    have hmerge : addDict p pm d = .ok (deepMerge p d, pm) := by
      simp only [addDict, hasKeyS, hdt, Option.isSome_none, Bool.false_eq_true, if_false]
      exact addMarks_of_none _ _ _ hdm
    have hnds := nodupKeys_deepMerge d p hpnd
    have hts : lookupS (deepMerge p d) "pyobsplot-type" = none := by
      rw [lookupS_deepMerge _ _ _ hdnd, hpt, hdt]
      rfl
    obtain ⟨r, hr1, hr2, hr3⟩ := plotSpecInit_final (deepMerge p d) pm hnds hts hpmk
    refine ⟨r, ?_, hr2, ?_⟩
    · simp only [psAdd, hpm, addVal]
      rw [hmerge]
      exact hr1
    · intro k hk
      rw [hr3 k hk, lookupS_deepMerge _ _ _ hdnd]
  · intro ms hmks
    have hlist : addList p pm ms = .ok (p, pm ++ ms) := addList_all_marks _ _ _ hmks
    have hmka : ∀ m ∈ pm ++ ms, isMark m = true := by
      intro m hm
      rcases List.mem_append.mp hm with h | h
      · exact hpmk m h
      · exact hmks m h
    obtain ⟨r, hr1, hr2, hr3⟩ := plotSpecInit_final p (pm ++ ms) hpnd hpt hmka
    refine ⟨r, ?_, hr2, hr3⟩
    simp only [psAdd, hpm, addVal]
    rw [hlist]
    exact hr1

/-- Witness for C1 at two concrete plot specs sharing the option key x. -/
theorem c1_add_concatenates_marks_and_merges_options_witness :
    ∃ r, psAdd [("marks", PVal.vlist [PVal.vdict [("pyobsplot-type", PVal.vstr "dot")]]),
                ("x", PVal.vdict [("a", PVal.atom 1), ("b", PVal.atom 2)])]
          (PVal.vspec [("marks", PVal.vlist [PVal.vdict [("pyobsplot-type", PVal.vstr "line")]]),
                       ("x", PVal.vdict [("a", PVal.atom 9)]), ("y", PVal.atom 5)]) = .ok r
      ∧ lookupS r "marks" = some (PVal.vlist
          ([PVal.vdict [("pyobsplot-type", PVal.vstr "dot")]] ++
           [PVal.vdict [("pyobsplot-type", PVal.vstr "line")]]))
      ∧ lookupS r "x" = claimMergedValue
          (some (PVal.vdict [("a", PVal.atom 1), ("b", PVal.atom 2)]))
          (some (PVal.vdict [("a", PVal.atom 9)])) := by
  obtain ⟨r, hr1, hr2, hr3⟩ :=
    (c1_add_concatenates_marks_and_merges_options
      [("marks", PVal.vlist [PVal.vdict [("pyobsplot-type", PVal.vstr "dot")]]),
       ("x", PVal.vdict [("a", PVal.atom 1), ("b", PVal.atom 2)])]
      [PVal.vdict [("pyobsplot-type", PVal.vstr "dot")]]
      rfl (by decide) rfl (by decide)).1
      [("marks", PVal.vlist [PVal.vdict [("pyobsplot-type", PVal.vstr "line")]]),
       ("x", PVal.vdict [("a", PVal.atom 9)]), ("y", PVal.atom 5)]
      [PVal.vdict [("pyobsplot-type", PVal.vstr "line")]]
      rfl (by decide) rfl (by decide)
  exact ⟨r, hr1, hr2, hr3 "x" (by decide)⟩

/-- C5: margin raises ValueError for every argument count other than one
    to four, and returns the CSS-style shorthand expansion on the supported
    arities. -/
theorem c5_margin_shorthand (args : List PVal) (a v h t r b l : PVal) :
    ((args.length = 0 ∨ 5 ≤ args.length) → margin args = .error .valueError)
    ∧ margin [a] = .ok [("margin", a)]
    ∧ margin [v, h] = .ok [("marginTop", v), ("marginBottom", v),
                           ("marginLeft", h), ("marginRight", h)]
    ∧ margin [t, h, b] = .ok [("marginTop", t), ("marginLeft", h),
                              ("marginRight", h), ("marginBottom", b)]
    ∧ margin [t, r, b, l] = .ok [("marginTop", t), ("marginRight", r),
                                 ("marginBottom", b), ("marginLeft", l)] := by
  refine ⟨?_, rfl, rfl, rfl, rfl⟩
  intro hlen
  rcases args with _ | ⟨a1, _ | ⟨a2, _ | ⟨a3, _ | ⟨a4, _ | ⟨a5, rest⟩⟩⟩⟩⟩
  · rfl
  · rcases hlen with hl | hl <;> simp at hl
  · rcases hlen with hl | hl <;> simp at hl
  · rcases hlen with hl | hl <;> simp at hl
  · rcases hlen with hl | hl <;> simp at hl
  · rfl

/-- Witness for C5: zero and five arguments raise, two arguments expand. -/
theorem c5_margin_shorthand_witness :
    margin ([] : List PVal) = .error .valueError
    ∧ margin [PVal.atom 1, PVal.atom 1, PVal.atom 1, PVal.atom 1, PVal.atom 1] =
        .error .valueError
    ∧ margin [PVal.atom 10, PVal.atom 20] =
        .ok [("marginTop", PVal.atom 10), ("marginBottom", PVal.atom 10),
             ("marginLeft", PVal.atom 20), ("marginRight", PVal.atom 20)] := by
  refine ⟨?_, ?_, ?_⟩
  · exact (c5_margin_shorthand [] (PVal.atom 0) (PVal.atom 0) (PVal.atom 0) (PVal.atom 0)
      (PVal.atom 0) (PVal.atom 0) (PVal.atom 0)).1 (Or.inl rfl)
  · exact (c5_margin_shorthand [PVal.atom 1, PVal.atom 1, PVal.atom 1, PVal.atom 1, PVal.atom 1]
      (PVal.atom 0) (PVal.atom 0) (PVal.atom 0) (PVal.atom 0) (PVal.atom 0) (PVal.atom 0)
      (PVal.atom 0)).1 (Or.inr (by decide))
  · exact (c5_margin_shorthand [] (PVal.atom 0) (PVal.atom 10) (PVal.atom 20) (PVal.atom 0)
      (PVal.atom 0) (PVal.atom 0) (PVal.atom 0)).2.2.1

/-- C6: adding an operand that is neither PlotSpec, dict, list nor tuple to
    a PlotSpec raises TypeError, and a list operand whose prefix is
    processed without error and whose next element is neither dict,
    PlotSpec, list nor tuple raises ValueError. -/
theorem c6_malformed_operands_raise (p : PDict) (pm : List PVal)
    (hpm : lookupS p "marks" = some (PVal.vlist pm)) :
    (∀ v, isInvalidOperand v = true → psAdd p v = .error .typeError)
    ∧ (∀ (xs : List PVal) (spec1 : PDict) (marks1 : List PVal) (v : PVal) (rest : List PVal),
        addList p pm xs = .ok (spec1, marks1) → isInvalidElem v = true →
        psAdd p (PVal.vlist (xs ++ v :: rest)) = .error .valueError) := by
  constructor
  · intro v hv
    simp only [psAdd, hpm]
    cases v with
    | atom n => simp [addVal]
    | vstr s => simp [addVal]
    | vother => simp [addVal]
    | vlist xs => simp [isInvalidOperand] at hv
    | vdict d => simp [isInvalidOperand] at hv
    | vspec d => simp [isInvalidOperand] at hv
  · intro xs spec1 marks1 v rest hok hv
    simp only [psAdd, hpm, addVal]
    rw [addList_append, hok]
    simp only [addList]
    cases v with
    | atom n => simp [addItem]
    | vstr s => simp [addItem]
    | vother => simp [addItem]
    | vlist ys => simp [isInvalidElem] at hv
    | vdict d => simp [isInvalidElem] at hv
    | vspec d => simp [isInvalidElem] at hv

/-- Witness for C6: adding the number 5 raises TypeError, adding the list
    holding the number 5 raises ValueError. -/
theorem c6_malformed_operands_raise_witness :
    psAdd [("marks", PVal.vlist [])] (PVal.atom 5) = .error .typeError
    ∧ psAdd [("marks", PVal.vlist [])] (PVal.vlist [PVal.atom 5]) = .error .valueError := by
  have h := c6_malformed_operands_raise [("marks", PVal.vlist [])] [] rfl
  refine ⟨h.1 (PVal.atom 5) (by decide), ?_⟩
  have h2 := h.2 [] [("marks", PVal.vlist [])] [] (PVal.atom 5) [] (by simp [addList]) (by decide)
  simpa using h2

/-- C2: the datetime branch of the default callback is dead code, because
    orjson serializes datetime.date and datetime.datetime natively: to_json
    emits the plain ISO-8601 JSON string and not the reserved datetime
    tag, while the default closure itself would produce the tag. The
    callback half of the claim does hold: with a widget supplied, a
    callable serializes to the callback tag under a fresh id and is stored
    in the callback registry under that id. -/
theorem c2_datetime_tag_bypassed :
    to_json false false (.pdate "2024-01-05") ⟨[], [], 0⟩ =
      .ok ("\"2024-01-05\"", ⟨[], [], 0⟩)
    ∧ defaultFn false false (.pdate "2024-01-05") ⟨[], [], 0⟩ =
        .ok (.pdictV [("__type__", .pstr "datetime"), ("value", .pstr "2024-01-05")],
             ⟨[], [], 0⟩)
    ∧ to_json true false (.pcallable 7) ⟨[], [], 0⟩ =
        .ok ("\x7b\"__type__\":\"callback\",\"id\":\"uuid-0\"\x7d", ⟨[("uuid-0", 7)], [], 1⟩)
    ∧ lookupS (SerState.registry ⟨[("uuid-0", 7)], [], 1⟩) "uuid-0" = some 7 := by
  refine ⟨?_, rfl, ?_, rfl⟩
  · simp only [to_json, toJsonVal, J.render]
    rfl
  · simp only [to_json, toJsonVal, J.render, renderObj, callbackTag, freshId, setKeyS]
    rfl

/-- C8: with no widget supplied, a callable is replaced by JSON null, both
    directly and inside a list, without raising. -/
theorem c8_callable_without_widget (hc : Bool) (k : Nat) (s : SerState) :
    toJsonVal false hc (.pcallable k) s = .ok (.null, s)
    ∧ to_json false hc (.pcallable k) s = .ok ("null", s)
    ∧ to_json false hc (.plistV [.pcallable k]) s = .ok ("[null]", s) := by
  refine ⟨?_, ?_, ?_⟩
  · simp [toJsonVal]
  · simp [to_json, toJsonVal, J.render]
  · simp [to_json, toJsonVal, toJsonArr, J.render, renderArr]

/-- C9: PlotSpec.__add__ copies the spec dict only shallowly, so deep
    merging an operand mutates a nested option dict reachable from the
    left operand in place: in the heap below, the spec of p is dict 0 and
    holds the nested dict 1 under x with value d: 1; after p + (a dict
    carrying x: (d: 2)), dict 1 has been overwritten to d: 2, while the
    top-level entries of dict 0 are unchanged. -/
theorem c9_nested_dict_mutated :
    c9Heap.getDict 1 = [("d", HV.hint 1)]
    ∧ (hPsAdd 20 c9Heap 0 (HV.dref 2)).map
        (fun rh => (rh.snd.getDict 1, rh.snd.getDict 0)) =
      some ([("d", HV.hint 2)], [("marks", HV.lref 0), ("x", HV.dref 1)]) := by
  refine ⟨rfl, ?_⟩
  simp [hPsAdd, hPlotSpecInit, hAddVal, hAddList, hAddItem, hAddDict, hDeepMerge,
        hMergeEntries, hCopyVal, hCopyFields, hCopyVals, c9Heap,
        Heap.getDict, Heap.setDict, Heap.getList, Heap.setList,
        Heap.allocDict, Heap.allocList, lookupS, setKeyS]

/-- Supported values serialize without raising, by strong induction on
    size, jointly for values, list elements and dict fields. -/
theorem supported_serializes_aux (N : Nat) :
    (∀ v : PyVal, sizeOf v ≤ N → supportedB v = true → ∀ (hw hc : Bool) (s : SerState),
        ∃ j s1, toJsonVal hw hc v s = .ok (j, s1))
    ∧ (∀ xs : List PyVal, sizeOf xs ≤ N → supportedArrB xs = true →
        ∀ (hw hc : Bool) (s : SerState),
        ∃ js s1, toJsonArr hw hc xs s = .ok (js, s1))
    ∧ (∀ fs : List (String × PyVal), sizeOf fs ≤ N → supportedFieldsB fs = true →
        ∀ (hw hc : Bool) (s : SerState),
        ∃ gs s1, toJsonFields hw hc fs s = .ok (gs, s1)) := by
  induction N using Nat.strong_induction_on with
  | _ N IH =>
    refine ⟨?_, ?_, ?_⟩
    · intro v hN hsup hw hc s
      cases v with
      | pnull => exact ⟨J.null, s, by simp [toJsonVal]⟩
      | pbool b => exact ⟨J.jbool b, s, by simp [toJsonVal]⟩
      | pint n => exact ⟨J.jint n, s, by simp [toJsonVal]⟩
      | pstr t => exact ⟨J.jstr t, s, by simp [toJsonVal]⟩
      | pdate iso => exact ⟨J.jstr iso, s, by simp [toJsonVal]⟩
      | plistV xs =>
        have hlt : sizeOf xs < N := by
          have h1 : sizeOf xs < sizeOf (PyVal.plistV xs) := by simp_arith
          omega
        obtain ⟨js, s1, hjs⟩ := (IH (sizeOf xs) hlt).2.1 xs le_rfl
          (by simpa [supportedB] using hsup) hw hc s
        exact ⟨J.jarr js, s1, by simp [toJsonVal, hjs]⟩
      | pdictV fs =>
        have hlt : sizeOf fs < N := by
          have h1 : sizeOf fs < sizeOf (PyVal.pdictV fs) := by simp_arith
          omega
        obtain ⟨gs, s1, hgs⟩ := (IH (sizeOf fs) hlt).2.2 fs le_rfl
          (by simpa [supportedB] using hsup) hw hc s
        exact ⟨J.jobj gs, s1, by simp [toJsonVal, hgs]⟩
      | cacheObj id body =>
        have hlt : sizeOf body < N := by
          have h1 : sizeOf body < sizeOf (PyVal.cacheObj id body) := by simp_arith
          omega
        have hsupb : supportedB body = true := by simpa [supportedB] using hsup
        cases hc with
        | false =>
          obtain ⟨j, s1, hj⟩ := (IH (sizeOf body) hlt).1 body le_rfl hsupb hw false s
          exact ⟨j, s1, by simp [toJsonVal, hj]⟩
        | true =>
          cases hlook : lookupS s.store id with
          | some f => exact ⟨cachedTag id, s, by simp [toJsonVal, hlook]⟩
          | none =>
            obtain ⟨j, s1, hj⟩ := (IH (sizeOf body) hlt).1 body le_rfl hsupb hw true s
            exact ⟨cachedTag id, { s1 with store := setKeyS s1.store id (J.render j) },
              by simp [toJsonVal, hlook, hj]⟩
      | forJsonObj body =>
        have hlt : sizeOf body < N := by
          have h1 : sizeOf body < sizeOf (PyVal.forJsonObj body) := by simp_arith
          omega
        obtain ⟨j, s1, hj⟩ := (IH (sizeOf body) hlt).1 body le_rfl
          (by simpa [supportedB] using hsup) hw hc s
        exact ⟨j, s1, by simp [toJsonVal, hj]⟩
      | tolistObj xs =>
        have hlt : sizeOf xs < N := by
          have h1 : sizeOf xs < sizeOf (PyVal.tolistObj xs) := by simp_arith
          omega
        obtain ⟨js, s1, hjs⟩ := (IH (sizeOf xs) hlt).2.1 xs le_rfl
          (by simpa [supportedB] using hsup) hw hc s
        exact ⟨J.jarr js, s1, by simp [toJsonVal, hjs]⟩
      | iterObj xs =>
        have hlt : sizeOf xs < N := by
          have h1 : sizeOf xs < sizeOf (PyVal.iterObj xs) := by simp_arith
          omega
        obtain ⟨js, s1, hjs⟩ := (IH (sizeOf xs) hlt).2.1 xs le_rfl
          (by simpa [supportedB] using hsup) hw hc s
        exact ⟨J.jarr js, s1, by simp [toJsonVal, hjs]⟩
      | pcallable tok => simp [supportedB] at hsup
      | pother => simp [supportedB] at hsup
    · intro xs hN hsup hw hc s
      cases xs with
      | nil => exact ⟨[], s, by simp [toJsonArr]⟩
      | cons x rest =>
        have hx : sizeOf x < N := by
          have h1 : sizeOf x < sizeOf (x :: rest) := by simp_arith
          omega
        have hrest : sizeOf rest < N := by
          have h1 : sizeOf rest < sizeOf (x :: rest) := by simp_arith
          omega
        simp only [supportedArrB, Bool.and_eq_true] at hsup
        obtain ⟨j, s1, hj⟩ := (IH (sizeOf x) hx).1 x le_rfl hsup.1 hw hc s
        obtain ⟨js, s2, hjs⟩ := (IH (sizeOf rest) hrest).2.1 rest le_rfl hsup.2 hw hc s1
        exact ⟨j :: js, s2, by simp [toJsonArr, hj, hjs]⟩
    · intro fs hN hsup hw hc s
      cases fs with
      | nil => exact ⟨[], s, by simp [toJsonFields]⟩
      | cons f rest =>
        obtain ⟨k, x⟩ := f
        have hx : sizeOf x < N := by
          have h1 : sizeOf x < sizeOf ((k, x) :: rest) := by simp_arith
          omega
        have hrest : sizeOf rest < N := by
          have h1 : sizeOf rest < sizeOf ((k, x) :: rest) := by simp_arith
          omega
        simp only [supportedFieldsB, Bool.and_eq_true] at hsup
        obtain ⟨j, s1, hj⟩ := (IH (sizeOf x) hx).1 x le_rfl hsup.1 hw hc s
        obtain ⟨gs, s2, hgs⟩ := (IH (sizeOf rest) hrest).2.2 rest le_rfl hsup.2 hw hc s1
        exact ⟨(k, j) :: gs, s2, by simp [toJsonFields, hj, hgs]⟩

/-- C4: a value with none of the supported shapes (no for_json, tolist or
    cache_id, not iterable, not a date or datetime, not callable) makes
    to_json raise TypeError, also when it sits inside a list; conversely
    every input built only of JSON primitives, dicts, lists, dates,
    datetimes and objects of the supported shapes serializes to a JSON
    string without raising. -/
theorem c4_unsupported_raises :
    (∀ (hw hc : Bool) (s : SerState), to_json hw hc .pother s = .error .typeError)
    ∧ (∀ (hw hc : Bool) (s : SerState),
        to_json hw hc (.plistV [.pother]) s = .error .typeError)
    ∧ (∀ (v : PyVal) (hw hc : Bool) (s : SerState), supportedB v = true →
        ∃ out s1, to_json hw hc v s = .ok (out, s1)) := by
  refine ⟨?_, ?_, ?_⟩
  · intro hw hc s
    simp [to_json, toJsonVal]
  · intro hw hc s
    simp [to_json, toJsonVal, toJsonArr]
  · intro v hw hc s hsup
    obtain ⟨j, s1, hj⟩ := (supported_serializes_aux (sizeOf v)).1 v le_rfl hsup hw hc s
    exact ⟨J.render j, s1, by simp [to_json, hj]⟩

/-- Witness for C4 at a concrete nested supported input. -/
theorem c4_unsupported_raises_witness :
    supportedB (.pdictV [("a", .plistV [.pint 1, .pdate "2024-01-05", .pnull])]) = true
    ∧ ∃ out s1, to_json false false
        (.pdictV [("a", .plistV [.pint 1, .pdate "2024-01-05", .pnull])]) ⟨[], [], 0⟩ =
        .ok (out, s1) := by
  have h : supportedB (.pdictV [("a", .plistV [.pint 1, .pdate "2024-01-05", .pnull])]) = true := by
    simp [supportedB, supportedArrB, supportedFieldsB]
  exact ⟨h, c4_unsupported_raises.2.2 _ false false ⟨[], [], 0⟩ h⟩

/-- Serialization never removes or overwrites an existing cache entry and
    preserves uniqueness of cache keys, by strong induction on size. -/
theorem store_preserved_aux (N : Nat) :
    (∀ v : PyVal, sizeOf v ≤ N → ∀ (hw hc : Bool) (s : SerState) (j : J) (s1 : SerState),
        toJsonVal hw hc v s = .ok (j, s1) →
        (∀ id f, lookupS s.store id = some f → lookupS s1.store id = some f)
        ∧ ((s.store.map Prod.fst).Nodup → (s1.store.map Prod.fst).Nodup))
    ∧ (∀ xs : List PyVal, sizeOf xs ≤ N →
        ∀ (hw hc : Bool) (s : SerState) (js : List J) (s1 : SerState),
        toJsonArr hw hc xs s = .ok (js, s1) →
        (∀ id f, lookupS s.store id = some f → lookupS s1.store id = some f)
        ∧ ((s.store.map Prod.fst).Nodup → (s1.store.map Prod.fst).Nodup))
    ∧ (∀ fs : List (String × PyVal), sizeOf fs ≤ N →
        ∀ (hw hc : Bool) (s : SerState) (gs : List (String × J)) (s1 : SerState),
        toJsonFields hw hc fs s = .ok (gs, s1) →
        (∀ id f, lookupS s.store id = some f → lookupS s1.store id = some f)
        ∧ ((s.store.map Prod.fst).Nodup → (s1.store.map Prod.fst).Nodup)) := by
  induction N using Nat.strong_induction_on with
  | _ N IH =>
    refine ⟨?_, ?_, ?_⟩
    · intro v hN hw hc s j s1 h
      cases v with
      | pnull =>
        simp only [toJsonVal, Except.ok.injEq, Prod.mk.injEq] at h
        obtain ⟨h1, h2⟩ := h
        subst h2
        exact ⟨fun id f hf => hf, fun hnd => hnd⟩
      | pbool b =>
        simp only [toJsonVal, Except.ok.injEq, Prod.mk.injEq] at h
        obtain ⟨h1, h2⟩ := h
        subst h2
        exact ⟨fun id f hf => hf, fun hnd => hnd⟩
      | pint n =>
        simp only [toJsonVal, Except.ok.injEq, Prod.mk.injEq] at h
        obtain ⟨h1, h2⟩ := h
        subst h2
        exact ⟨fun id f hf => hf, fun hnd => hnd⟩
      | pstr t =>
        simp only [toJsonVal, Except.ok.injEq, Prod.mk.injEq] at h
        obtain ⟨h1, h2⟩ := h
        subst h2
        exact ⟨fun id f hf => hf, fun hnd => hnd⟩
      | pdate iso =>
        simp only [toJsonVal, Except.ok.injEq, Prod.mk.injEq] at h
        obtain ⟨h1, h2⟩ := h
        subst h2
        exact ⟨fun id f hf => hf, fun hnd => hnd⟩
      | plistV xs =>
        have hlt : sizeOf xs < N := by
          have h1 : sizeOf xs < sizeOf (PyVal.plistV xs) := by simp_arith
          omega
        cases harr : toJsonArr hw hc xs s with
        | error e => simp [toJsonVal, harr] at h
        | ok p =>
          obtain ⟨js, s2⟩ := p
          simp only [toJsonVal, harr, Except.ok.injEq, Prod.mk.injEq] at h
          obtain ⟨h1, h2⟩ := h
          subst h2
          exact (IH (sizeOf xs) hlt).2.1 xs le_rfl hw hc s _ _ harr
      | pdictV fs =>
        have hlt : sizeOf fs < N := by
          have h1 : sizeOf fs < sizeOf (PyVal.pdictV fs) := by simp_arith
          omega
        cases harr : toJsonFields hw hc fs s with
        | error e => simp [toJsonVal, harr] at h
        | ok p =>
          obtain ⟨gs, s2⟩ := p
          simp only [toJsonVal, harr, Except.ok.injEq, Prod.mk.injEq] at h
          obtain ⟨h1, h2⟩ := h
          subst h2
          exact (IH (sizeOf fs) hlt).2.2 fs le_rfl hw hc s _ _ harr
      | cacheObj id body =>
        have hlt : sizeOf body < N := by
          have h1 : sizeOf body < sizeOf (PyVal.cacheObj id body) := by simp_arith
          omega
        cases hc with
        | false =>
          simp only [toJsonVal, Bool.false_eq_true, if_false] at h
          exact (IH (sizeOf body) hlt).1 body le_rfl hw false s j s1 h
        | true =>
          cases hlook : lookupS s.store id with
          | some f0 =>
            simp only [toJsonVal, hlook, if_true, Except.ok.injEq, Prod.mk.injEq] at h
            obtain ⟨h1, h2⟩ := h
            subst h2
            exact ⟨fun id f hf => hf, fun hnd => hnd⟩
          | none =>
            cases hbody : toJsonVal hw true body s with
            | error e => simp [toJsonVal, hlook, hbody] at h
            | ok p =>
              obtain ⟨j2, s2⟩ := p
              simp only [toJsonVal, hlook, hbody, if_true, Except.ok.injEq, Prod.mk.injEq] at h
              obtain ⟨h1, h2⟩ := h
              subst h2
              have hp := (IH (sizeOf body) hlt).1 body le_rfl hw true s j2 s2 hbody
              constructor
              · intro id0 f hf
                have hne : id ≠ id0 := by
                  intro he
                  rw [he] at hlook
                  rw [hlook] at hf
                  cases hf
                rw [lookupS_setKeyS_ne _ _ _ _ (Ne.symm hne)]
                exact hp.1 id0 f hf
              · intro hnd
                exact nodupKeys_setKeyS _ _ _ (hp.2 hnd)
      | forJsonObj body =>
        have hlt : sizeOf body < N := by
          have h1 : sizeOf body < sizeOf (PyVal.forJsonObj body) := by simp_arith
          omega
        simp only [toJsonVal] at h
        exact (IH (sizeOf body) hlt).1 body le_rfl hw hc s j s1 h
      | tolistObj xs =>
        have hlt : sizeOf xs < N := by
          have h1 : sizeOf xs < sizeOf (PyVal.tolistObj xs) := by simp_arith
          omega
        cases harr : toJsonArr hw hc xs s with
        | error e => simp [toJsonVal, harr] at h
        | ok p =>
          obtain ⟨js, s2⟩ := p
          simp only [toJsonVal, harr, Except.ok.injEq, Prod.mk.injEq] at h
          obtain ⟨h1, h2⟩ := h
          subst h2
          exact (IH (sizeOf xs) hlt).2.1 xs le_rfl hw hc s _ _ harr
      | iterObj xs =>
        have hlt : sizeOf xs < N := by
          have h1 : sizeOf xs < sizeOf (PyVal.iterObj xs) := by simp_arith
          omega
        cases harr : toJsonArr hw hc xs s with
        | error e => simp [toJsonVal, harr] at h
        | ok p =>
          obtain ⟨js, s2⟩ := p
          simp only [toJsonVal, harr, Except.ok.injEq, Prod.mk.injEq] at h
          obtain ⟨h1, h2⟩ := h
          subst h2
          exact (IH (sizeOf xs) hlt).2.1 xs le_rfl hw hc s _ _ harr
      | pcallable tok =>
        cases hw with
        | false =>
          simp only [toJsonVal, Bool.false_eq_true, if_false, Except.ok.injEq, Prod.mk.injEq] at h
          obtain ⟨h1, h2⟩ := h
          subst h2
          exact ⟨fun id f hf => hf, fun hnd => hnd⟩
        | true =>
          simp only [toJsonVal, if_true, Except.ok.injEq, Prod.mk.injEq] at h
          obtain ⟨h1, h2⟩ := h
          subst h2
          exact ⟨fun id f hf => hf, fun hnd => hnd⟩
      | pother => simp [toJsonVal] at h
    · intro xs hN hw hc s js s1 h
      cases xs with
      | nil =>
        simp only [toJsonArr, Except.ok.injEq, Prod.mk.injEq] at h
        obtain ⟨h1, h2⟩ := h
        subst h2
        exact ⟨fun id f hf => hf, fun hnd => hnd⟩
      | cons x rest =>
        have hx : sizeOf x < N := by
          have h1 : sizeOf x < sizeOf (x :: rest) := by simp_arith
          omega
        have hrest : sizeOf rest < N := by
          have h1 : sizeOf rest < sizeOf (x :: rest) := by simp_arith
          omega
        cases hv : toJsonVal hw hc x s with
        | error e => simp [toJsonArr, hv] at h
        | ok p =>
          obtain ⟨j, s2⟩ := p
          cases hrs : toJsonArr hw hc rest s2 with
          | error e => simp [toJsonArr, hv, hrs] at h
          | ok q =>
            obtain ⟨js2, s3⟩ := q
            simp only [toJsonArr, hv, hrs, Except.ok.injEq, Prod.mk.injEq] at h
            obtain ⟨h1, h2⟩ := h
            subst h2
            have p1 := (IH (sizeOf x) hx).1 x le_rfl hw hc s j s2 hv
            have p2 := (IH (sizeOf rest) hrest).2.1 rest le_rfl hw hc s2 _ _ hrs
            exact ⟨fun id f hf => p2.1 id f (p1.1 id f hf), fun hnd => p2.2 (p1.2 hnd)⟩
    · intro fs hN hw hc s gs s1 h
      cases fs with
      | nil =>
        simp only [toJsonFields, Except.ok.injEq, Prod.mk.injEq] at h
        obtain ⟨h1, h2⟩ := h
        subst h2
        exact ⟨fun id f hf => hf, fun hnd => hnd⟩
      | cons f rest =>
        obtain ⟨k, x⟩ := f
        have hx : sizeOf x < N := by
          have h1 : sizeOf x < sizeOf ((k, x) :: rest) := by simp_arith
          omega
        have hrest : sizeOf rest < N := by
          have h1 : sizeOf rest < sizeOf ((k, x) :: rest) := by simp_arith
          omega
        cases hv : toJsonVal hw hc x s with
        | error e => simp [toJsonFields, hv] at h
        | ok p =>
          obtain ⟨j, s2⟩ := p
          cases hrs : toJsonFields hw hc rest s2 with
          | error e => simp [toJsonFields, hv, hrs] at h
          | ok q =>
            obtain ⟨gs2, s3⟩ := q
            simp only [toJsonFields, hv, hrs, Except.ok.injEq, Prod.mk.injEq] at h
            obtain ⟨h1, h2⟩ := h
            subst h2
            have p1 := (IH (sizeOf x) hx).1 x le_rfl hw hc s j s2 hv
            have p2 := (IH (sizeOf rest) hrest).2.2 rest le_rfl hw hc s2 _ _ hrs
            exact ⟨fun id f hf => p2.1 id f (p1.1 id f hf), fun hnd => p2.2 (p1.2 hnd)⟩

/-- C3: with a cache supplied, serializing an object exposing cache_id goes
    through Cache.entry and yields the reserved cached tag; the first entry
    call for an id serializes the value, stores the fragment and makes it
    retrievable; a later entry call with the same id, even with a different
    value, returns the same tag and leaves the whole state, in particular
    the stored fragment, unchanged; and no run of the serializer ever
    overwrites or drops an existing cache entry, and uniqueness of the ids
    in the cache is preserved, so the cache maps each id to exactly one
    serialized sub-document. -/
theorem c3_cache_stores_each_id_once (hw : Bool) (id : String) (v w : PyVal) (s : SerState) :
    (toJsonVal hw true (.cacheObj id v) s = Cache_entry hw id v s)
    ∧ (∀ f, lookupS s.store id = some f → Cache_entry hw id w s = .ok (cachedTag id, s))
    ∧ (lookupS s.store id = none →
        ∀ frag s1, to_json hw true v s = .ok (frag, s1) →
          Cache_entry hw id v s =
            .ok (cachedTag id, { s1 with store := setKeyS s1.store id frag })
          ∧ lookupS (setKeyS s1.store id frag) id = some frag)
    ∧ (∀ j s1, toJsonVal hw true v s = .ok (j, s1) →
        (∀ id0 f, lookupS s.store id0 = some f → lookupS s1.store id0 = some f)
        ∧ ((s.store.map Prod.fst).Nodup → (s1.store.map Prod.fst).Nodup)) := by
  refine ⟨?_, ?_, ?_, ?_⟩
  · cases hlook : lookupS s.store id with
    | some f =>
      simp [toJsonVal, Cache_entry, hlook]
    | none =>
      cases hbody : toJsonVal hw true v s with
      | error e => simp [toJsonVal, Cache_entry, to_json, hlook, hbody]
      | ok p =>
        obtain ⟨j, s2⟩ := p
        simp [toJsonVal, Cache_entry, to_json, hlook, hbody]
  · intro f hf
    simp [Cache_entry, hf]
  · intro hlook frag s1 hj
    constructor
    · simp [Cache_entry, hlook, hj]
    · exact lookupS_setKeyS_self _ _ _
  · intro j s1 hj
    exact (store_preserved_aux (sizeOf v)).1 v le_rfl hw true s j s1 hj

/-- Witness for C3: the id k1 is first stored with fragment 5; a second
    entry call with the different value 6 returns the same tag and leaves
    the store unchanged. -/
theorem c3_cache_stores_each_id_once_witness :
    Cache_entry false "k1" (.pint 5) ⟨[], [], 0⟩ =
      .ok (cachedTag "k1", ⟨[], [("k1", "5")], 0⟩)
    ∧ Cache_entry false "k1" (.pint 6) ⟨[], [("k1", "5")], 0⟩ =
      .ok (cachedTag "k1", ⟨[], [("k1", "5")], 0⟩)
    ∧ lookupS [("k1", "5")] "k1" = some "5" := by
  have h0 := c3_cache_stores_each_id_once false "k1" (.pint 5) (.pint 6) ⟨[], [], 0⟩
  have h1 := c3_cache_stores_each_id_once false "k1" (.pint 5) (.pint 6) ⟨[], [("k1", "5")], 0⟩
  have hj : to_json false true (.pint 5) ⟨[], [], 0⟩ = .ok ("5", ⟨[], [], 0⟩) := by
    simp only [to_json, toJsonVal, J.render]
    rfl
  refine ⟨?_, h1.2.1 "5" rfl, rfl⟩
  exact (h0.2.2.1 rfl "5" ⟨[], [], 0⟩ hj).1

/-- Runs from states sharing the cache store agree on output and final
    store whenever the value contains no callable, by strong induction on
    size: the callback registry and the uuid supply never influence the
    serialized bytes. -/
theorem same_output_aux (N : Nat) :
    (∀ v : PyVal, sizeOf v ≤ N → callfreeB v = true →
        ∀ (hw hc : Bool) (s1 s2 : SerState), s1.store = s2.store →
        sameOutG (toJsonVal hw hc v s1) (toJsonVal hw hc v s2))
    ∧ (∀ xs : List PyVal, sizeOf xs ≤ N → callfreeArrB xs = true →
        ∀ (hw hc : Bool) (s1 s2 : SerState), s1.store = s2.store →
        sameOutG (toJsonArr hw hc xs s1) (toJsonArr hw hc xs s2))
    ∧ (∀ fs : List (String × PyVal), sizeOf fs ≤ N → callfreeFieldsB fs = true →
        ∀ (hw hc : Bool) (s1 s2 : SerState), s1.store = s2.store →
        sameOutG (toJsonFields hw hc fs s1) (toJsonFields hw hc fs s2)) := by
  induction N using Nat.strong_induction_on with
  | _ N IH =>
    refine ⟨?_, ?_, ?_⟩
    · intro v hN hcf hw hc s1 s2 hs
      cases v with
      | pnull => simp [toJsonVal, sameOutG, hs]
      | pbool b => simp [toJsonVal, sameOutG, hs]
      | pint n => simp [toJsonVal, sameOutG, hs]
      | pstr t => simp [toJsonVal, sameOutG, hs]
      | pdate iso => simp [toJsonVal, sameOutG, hs]
      | plistV xs =>
        have hlt : sizeOf xs < N := by
          have h1 : sizeOf xs < sizeOf (PyVal.plistV xs) := by simp_arith
          omega
        have hrel := (IH (sizeOf xs) hlt).2.1 xs le_rfl
          (by simpa [callfreeB] using hcf) hw hc s1 s2 hs
        cases h1 : toJsonArr hw hc xs s1 with
        | error e1 =>
          cases h2 : toJsonArr hw hc xs s2 with
          | error e2 =>
            rw [h1, h2] at hrel
            simp only [sameOutG] at hrel
            simp [toJsonVal, h1, h2, sameOutG, hrel]
          | ok q =>
            rw [h1, h2] at hrel
            obtain ⟨js2, t2⟩ := q
            simp [sameOutG] at hrel
        | ok p =>
          obtain ⟨js1, t1⟩ := p
          cases h2 : toJsonArr hw hc xs s2 with
          | error e2 =>
            rw [h1, h2] at hrel
            simp [sameOutG] at hrel
          | ok q =>
            obtain ⟨js2, t2⟩ := q
            rw [h1, h2] at hrel
            simp only [sameOutG] at hrel
            simp [toJsonVal, h1, h2, sameOutG, hrel.1, hrel.2]
      | pdictV fs =>
        have hlt : sizeOf fs < N := by
          have h1 : sizeOf fs < sizeOf (PyVal.pdictV fs) := by simp_arith
          omega
        have hrel := (IH (sizeOf fs) hlt).2.2 fs le_rfl
          (by simpa [callfreeB] using hcf) hw hc s1 s2 hs
        cases h1 : toJsonFields hw hc fs s1 with
        | error e1 =>
          cases h2 : toJsonFields hw hc fs s2 with
          | error e2 =>
            rw [h1, h2] at hrel
            simp only [sameOutG] at hrel
            simp [toJsonVal, h1, h2, sameOutG, hrel]
          | ok q =>
            rw [h1, h2] at hrel
            obtain ⟨gs2, t2⟩ := q
            simp [sameOutG] at hrel
        | ok p =>
          obtain ⟨gs1, t1⟩ := p
          cases h2 : toJsonFields hw hc fs s2 with
          | error e2 =>
            rw [h1, h2] at hrel
            simp [sameOutG] at hrel
          | ok q =>
            obtain ⟨gs2, t2⟩ := q
            rw [h1, h2] at hrel
            simp only [sameOutG] at hrel
            simp [toJsonVal, h1, h2, sameOutG, hrel.1, hrel.2]
      | cacheObj id body =>
        have hlt : sizeOf body < N := by
          have h1 : sizeOf body < sizeOf (PyVal.cacheObj id body) := by simp_arith
          omega
        have hcfb : callfreeB body = true := by simpa [callfreeB] using hcf
        have hrel := (IH (sizeOf body) hlt).1 body le_rfl hcfb hw hc s1 s2 hs
        cases hc with
        | false =>
          simp only [toJsonVal, Bool.false_eq_true, if_false]
          exact hrel
        | true =>
          cases hlook : lookupS s1.store id with
          | some f =>
            have hlook2 : lookupS s2.store id = some f := by rw [← hs]; exact hlook
            simp [toJsonVal, hlook, hlook2, sameOutG, hs]
          | none =>
            have hlook2 : lookupS s2.store id = none := by rw [← hs]; exact hlook
            have hrelt := (IH (sizeOf body) hlt).1 body le_rfl hcfb hw true s1 s2 hs
            cases h1 : toJsonVal hw true body s1 with
            | error e1 =>
              cases h2 : toJsonVal hw true body s2 with
              | error e2 =>
                rw [h1, h2] at hrelt
                simp only [sameOutG] at hrelt
                simp [toJsonVal, hlook, hlook2, h1, h2, sameOutG, hrelt]
              | ok q =>
                rw [h1, h2] at hrelt
                obtain ⟨j2, t2⟩ := q
                simp [sameOutG] at hrelt
            | ok p =>
              obtain ⟨j1, t1⟩ := p
              cases h2 : toJsonVal hw true body s2 with
              | error e2 =>
                rw [h1, h2] at hrelt
                simp [sameOutG] at hrelt
              | ok q =>
                obtain ⟨j2, t2⟩ := q
                rw [h1, h2] at hrelt
                simp only [sameOutG] at hrelt
                simp [toJsonVal, hlook, hlook2, h1, h2, sameOutG, hrelt.1, hrelt.2]
      | forJsonObj body =>
        have hlt : sizeOf body < N := by
          have h1 : sizeOf body < sizeOf (PyVal.forJsonObj body) := by simp_arith
          omega
        simp only [toJsonVal]
        exact (IH (sizeOf body) hlt).1 body le_rfl
          (by simpa [callfreeB] using hcf) hw hc s1 s2 hs
      | tolistObj xs =>
        have hlt : sizeOf xs < N := by
          have h1 : sizeOf xs < sizeOf (PyVal.tolistObj xs) := by simp_arith
          omega
        have hrel := (IH (sizeOf xs) hlt).2.1 xs le_rfl
          (by simpa [callfreeB] using hcf) hw hc s1 s2 hs
        cases h1 : toJsonArr hw hc xs s1 with
        | error e1 =>
          cases h2 : toJsonArr hw hc xs s2 with
          | error e2 =>
            rw [h1, h2] at hrel
            simp only [sameOutG] at hrel
            simp [toJsonVal, h1, h2, sameOutG, hrel]
          | ok q =>
            rw [h1, h2] at hrel
            obtain ⟨js2, t2⟩ := q
            simp [sameOutG] at hrel
        | ok p =>
          obtain ⟨js1, t1⟩ := p
          cases h2 : toJsonArr hw hc xs s2 with
          | error e2 =>
            rw [h1, h2] at hrel
            simp [sameOutG] at hrel
          | ok q =>
            obtain ⟨js2, t2⟩ := q
            rw [h1, h2] at hrel
            simp only [sameOutG] at hrel
            simp [toJsonVal, h1, h2, sameOutG, hrel.1, hrel.2]
      | iterObj xs =>
        have hlt : sizeOf xs < N := by
          have h1 : sizeOf xs < sizeOf (PyVal.iterObj xs) := by simp_arith
          omega
        have hrel := (IH (sizeOf xs) hlt).2.1 xs le_rfl
          (by simpa [callfreeB] using hcf) hw hc s1 s2 hs
        cases h1 : toJsonArr hw hc xs s1 with
        | error e1 =>
          cases h2 : toJsonArr hw hc xs s2 with
          | error e2 =>
            rw [h1, h2] at hrel
            simp only [sameOutG] at hrel
            simp [toJsonVal, h1, h2, sameOutG, hrel]
          | ok q =>
            rw [h1, h2] at hrel
            obtain ⟨js2, t2⟩ := q
            simp [sameOutG] at hrel
        | ok p =>
          obtain ⟨js1, t1⟩ := p
          cases h2 : toJsonArr hw hc xs s2 with
          | error e2 =>
            rw [h1, h2] at hrel
            simp [sameOutG] at hrel
          | ok q =>
            obtain ⟨js2, t2⟩ := q
            rw [h1, h2] at hrel
            simp only [sameOutG] at hrel
            simp [toJsonVal, h1, h2, sameOutG, hrel.1, hrel.2]
      | pcallable tok => simp [callfreeB] at hcf
      | pother => simp [toJsonVal, sameOutG]
    · intro xs hN hcf hw hc s1 s2 hs
      cases xs with
      | nil => simp [toJsonArr, sameOutG, hs]
      | cons x rest =>
        have hx : sizeOf x < N := by
          have h1 : sizeOf x < sizeOf (x :: rest) := by simp_arith
          omega
        have hrest : sizeOf rest < N := by
          have h1 : sizeOf rest < sizeOf (x :: rest) := by simp_arith
          omega
        simp only [callfreeArrB, Bool.and_eq_true] at hcf
        have hrel := (IH (sizeOf x) hx).1 x le_rfl hcf.1 hw hc s1 s2 hs
        cases h1 : toJsonVal hw hc x s1 with
        | error e1 =>
          cases h2 : toJsonVal hw hc x s2 with
          | error e2 =>
            rw [h1, h2] at hrel
            simp only [sameOutG] at hrel
            simp [toJsonArr, h1, h2, sameOutG, hrel]
          | ok q =>
            rw [h1, h2] at hrel
            obtain ⟨j2, t2⟩ := q
            simp [sameOutG] at hrel
        | ok p =>
          obtain ⟨j1, t1⟩ := p
          cases h2 : toJsonVal hw hc x s2 with
          | error e2 =>
            rw [h1, h2] at hrel
            simp [sameOutG] at hrel
          | ok q =>
            obtain ⟨j2, t2⟩ := q
            rw [h1, h2] at hrel
            simp only [sameOutG] at hrel
            have hrel2 := (IH (sizeOf rest) hrest).2.1 rest le_rfl hcf.2 hw hc t1 t2 hrel.2
            cases h3 : toJsonArr hw hc rest t1 with
            | error e1 =>
              cases h4 : toJsonArr hw hc rest t2 with
              | error e2 =>
                rw [h3, h4] at hrel2
                simp only [sameOutG] at hrel2
                simp [toJsonArr, h1, h2, h3, h4, sameOutG, hrel2]
              | ok q2 =>
                rw [h3, h4] at hrel2
                obtain ⟨js2, u2⟩ := q2
                simp [sameOutG] at hrel2
            | ok p2 =>
              obtain ⟨js1, u1⟩ := p2
              cases h4 : toJsonArr hw hc rest t2 with
              | error e2 =>
                rw [h3, h4] at hrel2
                simp [sameOutG] at hrel2
              | ok q2 =>
                obtain ⟨js2, u2⟩ := q2
                rw [h3, h4] at hrel2
                simp only [sameOutG] at hrel2
                simp [toJsonArr, h1, h2, h3, h4, sameOutG, hrel.1, hrel2.1, hrel2.2]
    · intro fs hN hcf hw hc s1 s2 hs
      cases fs with
      | nil => simp [toJsonFields, sameOutG, hs]
      | cons f rest =>
        obtain ⟨k, x⟩ := f
        have hx : sizeOf x < N := by
          have h1 : sizeOf x < sizeOf ((k, x) :: rest) := by simp_arith
          omega
        have hrest : sizeOf rest < N := by
          have h1 : sizeOf rest < sizeOf ((k, x) :: rest) := by simp_arith
          omega
        simp only [callfreeFieldsB, Bool.and_eq_true] at hcf
        have hrel := (IH (sizeOf x) hx).1 x le_rfl hcf.1 hw hc s1 s2 hs
        cases h1 : toJsonVal hw hc x s1 with
        | error e1 =>
          cases h2 : toJsonVal hw hc x s2 with
          | error e2 =>
            rw [h1, h2] at hrel
            simp only [sameOutG] at hrel
            simp [toJsonFields, h1, h2, sameOutG, hrel]
          | ok q =>
            rw [h1, h2] at hrel
            obtain ⟨j2, t2⟩ := q
            simp [sameOutG] at hrel
        | ok p =>
          obtain ⟨j1, t1⟩ := p
          cases h2 : toJsonVal hw hc x s2 with
          | error e2 =>
            rw [h1, h2] at hrel
            simp [sameOutG] at hrel
          | ok q =>
            obtain ⟨j2, t2⟩ := q
            rw [h1, h2] at hrel
            simp only [sameOutG] at hrel
            have hrel2 := (IH (sizeOf rest) hrest).2.2 rest le_rfl hcf.2 hw hc t1 t2 hrel.2
            cases h3 : toJsonFields hw hc rest t1 with
            | error e1 =>
              cases h4 : toJsonFields hw hc rest t2 with
              | error e2 =>
                rw [h3, h4] at hrel2
                simp only [sameOutG] at hrel2
                simp [toJsonFields, h1, h2, h3, h4, sameOutG, hrel2]
              | ok q2 =>
                rw [h3, h4] at hrel2
                obtain ⟨gs2, u2⟩ := q2
                simp [sameOutG] at hrel2
            | ok p2 =>
              obtain ⟨gs1, u1⟩ := p2
              cases h4 : toJsonFields hw hc rest t2 with
              | error e2 =>
                rw [h3, h4] at hrel2
                simp [sameOutG] at hrel2
              | ok q2 =>
                obtain ⟨gs2, u2⟩ := q2
                rw [h3, h4] at hrel2
                simp only [sameOutG] at hrel2
                simp [toJsonFields, h1, h2, h3, h4, sameOutG, hrel.1, hrel2.1, hrel2.2]

/-- C10: in the absence of callables, serialization is deterministic up to
    the uuid supply: two runs of to_json on the same input from states
    sharing the cache store (while the callback registry and the uuid
    counter, the only source of fresh callback ids, may differ arbitrarily)
    produce the same output string, the same error if any, and the same
    final cache store. -/
theorem c10_callfree_serialization_deterministic (hw hc : Bool) (v : PyVal)
    (s1 s2 : SerState) (hcf : callfreeB v = true) (hs : s1.store = s2.store) :
    sameOutG (to_json hw hc v s1) (to_json hw hc v s2) := by
  have hrel := (same_output_aux (sizeOf v)).1 v le_rfl hcf hw hc s1 s2 hs
  cases h1 : toJsonVal hw hc v s1 with
  | error e1 =>
    cases h2 : toJsonVal hw hc v s2 with
    | error e2 =>
      rw [h1, h2] at hrel
      simp only [sameOutG] at hrel
      simp [to_json, h1, h2, sameOutG, hrel]
    | ok q =>
      rw [h1, h2] at hrel
      obtain ⟨j2, t2⟩ := q
      simp [sameOutG] at hrel
  | ok p =>
    obtain ⟨j1, t1⟩ := p
    cases h2 : toJsonVal hw hc v s2 with
    | error e2 =>
      rw [h1, h2] at hrel
      simp [sameOutG] at hrel
    | ok q =>
      obtain ⟨j2, t2⟩ := q
      rw [h1, h2] at hrel
      simp only [sameOutG] at hrel
      simp [to_json, h1, h2, sameOutG, hrel.1, hrel.2]

/-- Witness for C10: the same callable-free input serialized from two
    states that differ in registry and uuid counter but share the empty
    store. -/
theorem c10_callfree_serialization_deterministic_witness :
    callfreeB (.pdictV [("a", .plistV [.pint 1, .pdate "2024-01-05"])]) = true
    ∧ sameOutG
        (to_json false true (.pdictV [("a", .plistV [.pint 1, .pdate "2024-01-05"])]) ⟨[], [], 0⟩)
        (to_json false true (.pdictV [("a", .plistV [.pint 1, .pdate "2024-01-05"])])
          ⟨[("uuid-3", 9)], [], 7⟩) := by
  have hcf : callfreeB (.pdictV [("a", .plistV [.pint 1, .pdate "2024-01-05"])]) = true := by
    simp [callfreeB, callfreeArrB, callfreeFieldsB]
  exact ⟨hcf, c10_callfree_serialization_deterministic false true _ ⟨[], [], 0⟩
    ⟨[("uuid-3", 9)], [], 7⟩ hcf rfl⟩

/- Lemmas about get_in and Dimensioned.flatten. -/

theorem lookupS_none_not_mem {α : Type} (d : List (String × α)) (k : String)
    (h : lookupS d k = none) : k ∉ d.map Prod.fst := by
  induction d with
  | nil => simp
  | cons hd tl ih =>
    obtain ⟨k0, w⟩ := hd
    simp only [lookupS] at h
    by_cases hk : k0 = k
    · simp [hk] at h
    · simp only [if_neg hk] at h
      simp [Ne.symm hk, ih h]

theorem processSegList_ok (xs : List PVal) : ∀ (path : List Seg) (ys : List PVal),
    processSegList xs path = .ok ys →
    ∀ y ∈ ys, ∃ x ∈ xs, processSegment x path = .ok y := by
  induction xs with
  | nil =>
    intro path ys h y hy
    simp only [processSegList, Except.ok.injEq] at h
    subst h
    cases hy
  | cons x xt ih =>
    intro path ys h y hy
    cases hx : processSegment x path with
    | error e => simp [processSegList, hx] at h
    | ok y1 =>
      cases hrest : processSegList xt path with
      | error e => simp [processSegList, hx, hrest] at h
      | ok ys1 =>
        simp only [processSegList, hx, hrest, Except.ok.injEq] at h
        subst h
        rcases List.mem_cons.mp hy with hy1 | hy1
        · exact ⟨x, by simp, hy1 ▸ hx⟩
        · obtain ⟨x2, hx2, hx2y⟩ := ih path ys1 hrest y hy1
          exact ⟨x2, by simp [hx2], hx2y⟩

/-- The value extracted along a path whose dimension segments name the
    dimensions of names followed by a final leaves segment is nested lists
    to the depth of names. -/
theorem processSegment_shaped (path : List Seg) : ∀ (names : List String) (L : String)
    (data v : PVal),
    dimsOfPath path = names.map PathDim.dkey ++ [PathDim.dleaves L] →
    processSegment data path = .ok v → shapedB names.length v = true := by
  induction path with
  | nil =>
    intro names L data v hd h
    simp [dimsOfPath] at hd
  | cons seg rest ih =>
    intro names L data v hd h
    cases seg with
    | key k =>
      have hd2 : dimsOfPath rest = names.map PathDim.dkey ++ [PathDim.dleaves L] := by
        simpa [dimsOfPath] using hd
      cases data with
      | vdict d =>
        cases hlook : lookupS d k with
        | some v1 =>
          simp only [processSegment, hlook] at h
          exact ih names L v1 v hd2 h
        | none => simp [processSegment, hlook] at h
      | atom n => simp [processSegment] at h
      | vstr t => simp [processSegment] at h
      | vlist xs => simp [processSegment] at h
      | vspec d => simp [processSegment] at h
      | vother => simp [processSegment] at h
    | dim nm =>
      cases names with
      | nil => simp [dimsOfPath] at hd
      | cons n0 names2 =>
        simp only [dimsOfPath, List.filterMap_cons, List.map_cons, List.cons_append,
          List.cons.injEq] at hd
        cases data with
        | vlist xs =>
          cases hseg : processSegList xs rest with
          | error e => simp [processSegment, hseg] at h
          | ok ys =>
            simp only [processSegment, hseg, Except.ok.injEq] at h
            subst h
            simp only [List.length_cons, shapedB, List.all_eq_true]
            intro y hy
            obtain ⟨x, hx, hxy⟩ := processSegList_ok xs rest ys hseg y hy
            exact ih names2 L x y hd.2 hxy
        | atom n => simp [processSegment] at h
        | vstr t => simp [processSegment] at h
        | vdict d => simp [processSegment] at h
        | vspec d => simp [processSegment] at h
        | vother => simp [processSegment] at h
    | leaf nm =>
      cases names with
      | nil => simp [shapedB]
      | cons n0 names2 => simp [dimsOfPath] at hd

/-- _flatten agrees with the directly written enumeration of claim C7: over
    a value of the right shape and with fresh dimension and leaves names,
    it produces one record per leaf in depth-first, left-to-right order,
    each record extending the prefix with the index of the leaf along every
    dimension, in order, and finally the leaf value under the leaves
    name. -/
theorem flattenAux_claim (names : List String) : ∀ (L : String) (v : PVal) (pfx : PDict),
    shapedB names.length v = true →
    names.Nodup → L ∉ names →
    (∀ n ∈ names, lookupS pfx n = none) → lookupS pfx L = none →
    flattenAux (some L) v (names.map PathDim.dkey) pfx =
      .ok ((claimFlatten names L v).map fun r => pfx ++ r) := by
  induction names with
  | nil =>
    intro L v pfx hsh hnd hL hpn hpL
    simp only [List.map_nil, flattenAux, claimFlatten, List.map_cons]
    have hu : unionD pfx [(L, v)] = pfx ++ [(L, v)] := by
      simp only [unionD, List.foldl_cons, List.foldl_nil]
      exact setKeyS_not_mem _ _ _ (lookupS_none_not_mem _ _ hpL)
    rw [hu]
  | cons n names2 ih =>
    intro L v pfx hsh hnd hL hpn hpL
    cases v with
    | vlist xs =>
      have hall : ∀ x ∈ xs, shapedB names2.length x = true := by
        simpa [shapedB, List.all_eq_true] using hsh
      have hnd2 : names2.Nodup := (List.nodup_cons.mp hnd).2
      have hnn : n ∉ names2 := (List.nodup_cons.mp hnd).1
      have hL2 : L ∉ names2 := fun hm => hL (List.mem_cons_of_mem _ hm)
      have hLn : L ≠ n := fun he => hL (by simp [he])
      have hlist : ∀ (ts : List PVal) (i : Nat), (∀ x ∈ ts, shapedB names2.length x = true) →
          flattenList (some L) n ts i (names2.map PathDim.dkey) pfx =
          .ok ((ts.enumFrom i).flatMap fun p =>
                (claimFlatten names2 L p.snd).map fun r => (pfx ++ [(n, PVal.atom p.fst)]) ++ r) := by
        intro ts
        induction ts with
        | nil =>
          intro i hts
          simp [flattenList, List.enumFrom]
        | cons t ts2 iht =>
          intro i hts
          have hset : setKeyS pfx n (PVal.atom i) = pfx ++ [(n, PVal.atom i)] :=
            setKeyS_not_mem _ _ _ (lookupS_none_not_mem _ _ (hpn n (by simp)))
          have hpfx2 : ∀ m ∈ names2, lookupS (pfx ++ [(n, PVal.atom i)]) m = none := by
            intro m hm
            rw [lookupS_append, hpn m (by simp [hm])]
            simp [lookupS, show n ≠ m from fun he => hnn (he ▸ hm)]
          have hpfxL : lookupS (pfx ++ [(n, PVal.atom i)]) L = none := by
            rw [lookupS_append, hpL]
            simp [lookupS, Ne.symm hLn]
          have hone := ih L t (pfx ++ [(n, PVal.atom i)]) (hts t (by simp)) hnd2 hL2 hpfx2 hpfxL
          simp only [flattenList, hset, hone]
          rw [iht (i + 1) (fun x hx => hts x (by simp [hx]))]
          simp only [List.enumFrom_cons, List.flatMap_cons, Except.ok.injEq]
      rw [List.map_cons, flattenAux, hlist xs 0 hall]
      simp only [claimFlatten, List.enum, List.map_flatMap, List.map_map, Except.ok.injEq]
      congr 1
      funext p
      congr 1
      funext r
      simp only [Function.comp_apply]
      exact (List.append_cons _ _ _).symm
    | atom m => simp [shapedB] at hsh
    | vstr t => simp [shapedB] at hsh
    | vdict d => simp [shapedB] at hsh
    | vspec d => simp [shapedB] at hsh
    | vother => simp [shapedB] at hsh

/-- C7: along a path whose dict segments name dimensions followed by one
    final leaves segment, a successful get_in returns a Dimensioned value
    carrying those dimensions, and its flatten returns exactly the records
    of claimFlatten: one record per leaf in row-major (depth-first,
    left-to-right) order, mapping every named dimension, in order, to the
    index of the leaf along that dimension and the leaves name to the leaf
    value. The dimension names and the leaves name are assumed pairwise
    distinct, as any usable record shape requires. -/
theorem c7_get_in_flatten_enumerates_leaves (data : PVal) (path : List Seg)
    (names : List String) (L : String) (D : Dimensioned)
    (hdims : dimsOfPath path = names.map PathDim.dkey ++ [PathDim.dleaves L])
    (hnd : names.Nodup) (hLn : L ∉ names)
    (hget : getIn data path = .ok (.dimd D)) :
    D.dimensions = names.map PathDim.dkey ++ [PathDim.dleaves L]
    ∧ D.flatten = .ok (claimFlatten names L D.value) := by
  have hproc : processSegment data path = .ok D.value ∧ D.dimensions = dimsOfPath path := by
    cases hp : processSegment data path with
    | error e => simp [getIn, hp] at hget
    | ok v =>
      by_cases hany : path.any isDictSeg
      · simp only [getIn, hp, hany, if_true, Except.ok.injEq] at hget
        injection hget with h
        subst h
        exact ⟨rfl, rfl⟩
      · simp [getIn, hp, hany] at hget
  have hDdims : D.dimensions = names.map PathDim.dkey ++ [PathDim.dleaves L] :=
    hproc.2.trans hdims
  have hshape : shapedB names.length D.value = true :=
    processSegment_shaped path names L data D.value hdims hproc.1
  refine ⟨hDdims, ?_⟩
  rw [Dimensioned.flatten, hDdims, List.getLast?_concat, List.dropLast_concat]
  show flattenAux (some L) D.value (List.map PathDim.dkey names) [] = _
  rw [flattenAux_claim names L D.value [] hshape hnd hLn (fun n hn => rfl) rfl]
  simp

/-- Witness for C7 at the nested example data of the source tests: the
    records carry the indices along first and second and the leaf under
    c. -/
theorem c7_get_in_flatten_enumerates_leaves_witness :
    getIn (.vdict [("a", .vlist [
        .vdict [("b", .vlist [.vdict [("c", .atom 1)], .vdict [("c", .atom 2)]])],
        .vdict [("b", .vlist [.vdict [("c", .atom 3)], .vdict [("c", .atom 4)]])]])])
      [.key "a", .dim "first", .key "b", .dim "second", .key "c", .leaf "c"] =
      .ok (.dimd ⟨.vlist [.vlist [.atom 1, .atom 2], .vlist [.atom 3, .atom 4]],
        [.dkey "first", .dkey "second", .dleaves "c"]⟩)
    ∧ Dimensioned.flatten ⟨.vlist [.vlist [.atom 1, .atom 2], .vlist [.atom 3, .atom 4]],
        [.dkey "first", .dkey "second", .dleaves "c"]⟩ =
      .ok (claimFlatten ["first", "second"] "c"
        (.vlist [.vlist [.atom 1, .atom 2], .vlist [.atom 3, .atom 4]])) := by
  have hget : getIn (.vdict [("a", .vlist [
        .vdict [("b", .vlist [.vdict [("c", .atom 1)], .vdict [("c", .atom 2)]])],
        .vdict [("b", .vlist [.vdict [("c", .atom 3)], .vdict [("c", .atom 4)]])]])])
      [.key "a", .dim "first", .key "b", .dim "second", .key "c", .leaf "c"] =
      .ok (.dimd ⟨.vlist [.vlist [.atom 1, .atom 2], .vlist [.atom 3, .atom 4]],
        [.dkey "first", .dkey "second", .dleaves "c"]⟩) := by
    simp [getIn, processSegment, processSegList, lookupS, dimsOfPath, isDictSeg]
  refine ⟨hget, ?_⟩
  exact (c7_get_in_flatten_enumerates_leaves _ _ ["first", "second"] "c" _ (by simp [dimsOfPath])
    (by decide) (by decide) hget).2
